import Mathlib

/-!
Verification of the Mersenne-form modular reduction engine of the
`bounty-ecdsa-signature` repository (`src/ops/mersenne.rs`).

The repository computes `x mod p` and `(a*b) mod p` on homomorphically
encrypted fixed-width radix integers.  Each radix ciphertext is an ordered
sequence of blocks, a block holding 2 plaintext bits (the code is run with
`PARAM_MESSAGE_2_CARRY_2`, and its width computations hard-code 2 bits per
block, e.g. `c_blocks = (c.bits + 1) / 2`).  A ciphertext with `len` blocks
therefore represents a plaintext value below `4 ^ len`.

Shallow embedding: a ciphertext is modelled by its block count and the
plaintext value it decrypts to.  The homomorphic block operations
(`extend_radix_with_trivial_zero_blocks_msb`, `trim_radix_blocks_msb_assign`,
`scalar_right_shift`, `scalar_left_shift`, `smart_sub`, `add`,
`smart_scalar_mul`, `smart_mul`) live in the external FHE library, outside
this repository's sources; they are modelled from the spec's data-model
section (add/sub/scalar-mul/mul wrap modulo the representable width, shifts
are by known constants, extension adds zero high blocks, trimming drops high
blocks).  Binary operations act on the combined width (the larger of the two
operand block counts).  All `usize` subtractions performed by the repository
code itself (trim amounts, extension amounts) are modelled as checked
subtraction returning `Option`, mirroring the panic-on-underflow behaviour of
the Rust arithmetic the code relies on; a panic is modelled as `none`.
-/

/-- Fuel-driven floor base-2 logarithm; structurally recursive so that the
kernel can evaluate it on literals. -/
def natLog2Aux : Nat → Nat → Nat
  | 0, _ => 0
  | fuel + 1, n => if n ≤ 1 then 0 else natLog2Aux fuel (n / 2) + 1

/-- Modelled from the spec: `bigint_ilog2_floor` (helper module, not under
`src/`), the floor of `log2`, as used by `mersenne_coeff_p2`. -/
def bigint_ilog2_floor (n : Nat) : Nat := natLog2Aux n n

/-- Modelled from the spec: `bigint_ilog2_ceil` (helper module, not under
`src/`), the ceiling of `log2`: `n = ceil(log2(p))`. -/
def bigint_ilog2_ceil (n : Nat) : Nat :=
  if n ≤ 1 then 0 else bigint_ilog2_floor (n - 1) + 1

/-- Number of bits of a natural number, as `BigInt::bits` returns it:
`0` for `0`, otherwise `floor(log2 c) + 1`. -/
def natBits (c : Nat) : Nat := if c = 0 then 0 else bigint_ilog2_floor c + 1

/-- Block budget for the reduction constant: the code computes
`c_blocks = (c.bits() + 1) / 2`, i.e. the number of 2-bit blocks needed to
hold `c`. -/
def c_blocks (c : Nat) : Nat := (natBits c + 1) / 2

/-- A radix ciphertext, modelled by its block count and the plaintext value
it decrypts to.  A block holds 2 plaintext bits, so a well-formed ciphertext
satisfies `val < 4 ^ len`. -/
structure RCt where
  len : Nat
  val : Nat
deriving DecidableEq, Repr

/-- Checked `usize` subtraction: the repository computes every trim and
extension amount by bare `usize` subtraction, which panics on underflow;
`none` models the panic. -/
def csub (a b : Nat) : Option Nat := if b ≤ a then some (a - b) else none

/-- Modelled from the spec: `extend_radix_with_trivial_zero_blocks_msb`
appends `k` zero-valued high blocks, leaving the value unchanged. -/
def extendMsb (k : Nat) (x : RCt) : RCt := ⟨x.len + k, x.val⟩

/-- Modelled from the spec: `trim_radix_blocks_msb_assign` drops `k` high
blocks; the retained value is reduced to the remaining width. -/
def trimMsb (k : Nat) (x : RCt) : RCt := ⟨x.len - k, x.val % 4 ^ (x.len - k)⟩

/-- Modelled from the spec: `scalar_right_shift_parallelized` by a known
amount. -/
def shiftR (s : Nat) (x : RCt) : RCt := ⟨x.len, x.val / 2 ^ s⟩

/-- Modelled from the spec: `scalar_left_shift_parallelized` by a known
amount, wrapping at the ciphertext width. -/
def shiftL (s : Nat) (x : RCt) : RCt := ⟨x.len, x.val * 2 ^ s % 4 ^ x.len⟩

/-- Modelled from the spec: homomorphic addition, on the combined width. -/
def addCt (a b : RCt) : RCt :=
  ⟨max a.len b.len, (a.val + b.val) % 4 ^ max a.len b.len⟩

/-- Modelled from the spec: homomorphic subtraction (two's-complement style
wrap-around), on the combined width. -/
def subCt (a b : RCt) : RCt :=
  ⟨max a.len b.len,
    (a.val % 4 ^ max a.len b.len
      + (4 ^ max a.len b.len - b.val % 4 ^ max a.len b.len))
      % 4 ^ max a.len b.len⟩

/-- Modelled from the spec: `smart_scalar_mul_parallelized` by a known
scalar, wrapping at the ciphertext width. -/
def scalarMul (c : Nat) (x : RCt) : RCt := ⟨x.len, c * x.val % 4 ^ x.len⟩

/-- Modelled from the spec: `smart_mul_assign_parallelized`, ciphertext by
ciphertext, on the combined width. -/
def mulCt (a b : RCt) : RCt :=
  ⟨max a.len b.len, a.val * b.val % 4 ^ max a.len b.len⟩

/-- `mersenne_coeff_p` of `src/ops/mersenne.rs`: `n = ceil(log2 p)` and the
single-term gap `c = 2^n - p`. -/
def mersenne_coeff_p (p : Nat) : Nat × Nat :=
  (bigint_ilog2_ceil p, 2 ^ bigint_ilog2_ceil p - p)

/-- `mersenne_coeff_p2` of `src/ops/mersenne.rs`: `n = ceil(log2 p)`,
`b = 2^n - p`; if `b = 1` the degenerate `(n, none, 1)`, otherwise
`m = floor(log2 b)` and `c = b - 2^m` (a `BigInt` in the source, hence `Int`
here). -/
def mersenne_coeff_p2 (p : Nat) : Nat × Option Nat × Int :=
  let n := bigint_ilog2_ceil p
  let b := 2 ^ n - p
  if b = 1 then (n, none, 1)
  else (n, some (bigint_ilog2_floor b), (b : Int) - 2 ^ bigint_ilog2_floor b)

/-- One step of the plaintext reference reduction `mersenne_mod_native`:
split `x = a * 2^n + b` and return `a * (c + 2^m) + b` (the `2^m` addend is
absent in the degenerate single-bit-gap case), with `(n, m, c)` taken from
`mersenne_coeff_p2 p`. -/
def mersenne_step (p x : Nat) : Nat :=
  let n := (mersenne_coeff_p2 p).1
  let m := (mersenne_coeff_p2 p).2.1
  let c := (mersenne_coeff_p2 p).2.2
  let a := x / 2 ^ n
  let b := x % 2 ^ n
  a * (c + match m with | some mv => (2 : Int) ^ mv | none => 0).toNat + b

/-- Fuel-indexed unfolding of the recursion in `mersenne_mod_native`: compute
the candidate residue, recurse while it is still `≥ p`.  `none` means the
fuel ran out before the recursion stopped. -/
def mersenne_mod_go : Nat → Nat → Nat → Option Nat
  | 0, _, _ => none
  | fuel + 1, x, p =>
    let r := mersenne_step p x
    if p ≤ r then mersenne_mod_go fuel r p else some r

/-- `mersenne_mod_native` of `src/ops/mersenne.rs`.  The Rust function is
unboundedly recursive; `x + 2` units of fuel are sufficient for every
terminating run, because each recursive call strictly decreases the value
while it is `≥ 2^n`, so `none` denotes genuine non-termination. -/
def mersenne_mod_native (x p : Nat) : Option Nat :=
  mersenne_mod_go (x + 2) x p

/-- One split-trim-combine pass of `mod_mersenne` (used for its first and
second passes, where the final addition is `add(ca, b)`): split off
`a = x >> n` and `b = x - (a << n)`, trim `a` to `targetA` blocks and `b` to
`NB` blocks, and return `c * a + b`. -/
def mersenne_reduce_pass (n c NB targetA : Nat) (x : RCt) : Option RCt :=
  match csub x.len targetA, csub x.len NB with
  | some ka, some kb =>
    let a := shiftR n x
    let b := subCt x (shiftL n a)
    let a2 := trimMsb ka a
    let b2 := trimMsb kb b
    let ca := scalarMul c a2
    some (addCt ca b2)
  | _, _ => none

/-- The third pass of `mod_mersenne`: identical to `mersenne_reduce_pass`
except that the final addition is `add(b, ca)` (the accumulator is `b`). -/
def mersenne_reduce_pass_final (n c NB targetA : Nat) (x : RCt) : Option RCt :=
  match csub x.len targetA, csub x.len NB with
  | some ka, some kb =>
    let a := shiftR n x
    let b := subCt x (shiftL n a)
    let a2 := trimMsb ka a
    let b2 := trimMsb kb b
    let ca := scalarMul c a2
    some (addCt b2 ca)
  | _, _ => none

/-- One pass of `mod_mersenne2` (two-term gap): when `m` is present the two
products `c2 * a` and `a << m` are formed (concurrently in the source) and
summed before `b` is added; when `m` is absent the pass coincides with the
single-term pass with constant `c2`.  In all three passes of `mod_mersenne2`
the final addition is `add(ca, b)`. -/
def mersenne_reduce_pass_two (n : Nat) (m : Option Nat) (c2 : Int)
    (NB targetA : Nat) (x : RCt) : Option RCt :=
  match csub x.len targetA, csub x.len NB with
  | some ka, some kb =>
    let a := shiftR n x
    let b := subCt x (shiftL n a)
    let a2 := trimMsb ka a
    let b2 := trimMsb kb b
    match m with
    | some mv =>
      let ma := shiftL mv a2
      let ca := scalarMul c2.toNat a2
      let ca2 := addCt ca ma
      some (addCt ca2 b2)
    | none =>
      let ca := scalarMul c2.toNat a2
      some (addCt ca b2)
  | _, _ => none

/-- `mod_mersenne` of `src/ops/mersenne.rs`: extend the input to `2 * NB`
blocks, run three fixed passes with trim targets `NB + c_blocks + 1`,
`NB + 1` and `2 + c_blocks`, and trim the result to `NB` blocks. -/
def mod_mersenne (NB p : Nat) (x : RCt) : Option RCt :=
  let n := (mersenne_coeff_p p).1
  let c := (mersenne_coeff_p p).2
  let cb := c_blocks c
  (csub (NB * 2) x.len).bind fun ke =>
  (mersenne_reduce_pass n c NB (NB + cb + 1) (extendMsb ke x)).bind fun y1 =>
  (mersenne_reduce_pass n c NB (NB + 1) y1).bind fun y2 =>
  (mersenne_reduce_pass_final n c NB (2 + cb) y2).bind fun y3 =>
  (csub y3.len NB).map fun kf => trimMsb kf y3

/-- `mod_mersenne2` of `src/ops/mersenne.rs`: the two-term-gap engine, with
the same pass structure and trim targets as `mod_mersenne` but with the
coefficients of `mersenne_coeff_p2` (note `c_blocks` is computed from the
two-term residual `c`, not from the full gap). -/
def mod_mersenne2 (NB p : Nat) (x : RCt) : Option RCt :=
  let n := (mersenne_coeff_p2 p).1
  let m := (mersenne_coeff_p2 p).2.1
  let c2 := (mersenne_coeff_p2 p).2.2
  let cb := c_blocks c2.toNat
  (csub (NB * 2) x.len).bind fun ke =>
  (mersenne_reduce_pass_two n m c2 NB (NB + cb + 1) (extendMsb ke x)).bind fun y1 =>
  (mersenne_reduce_pass_two n m c2 NB (NB + 1) y1).bind fun y2 =>
  (mersenne_reduce_pass_two n m c2 NB (2 + cb) y2).bind fun y3 =>
  (csub y3.len NB).map fun kf => trimMsb kf y3

/-- `mod_mersenne_fast` of `src/ops/mersenne.rs`: the one-pass variant for
inputs below `2 * p`; a single split-trim-combine with trim target
`2 + c_blocks`, accumulating into `b`, trimmed to `NB` blocks. -/
def mod_mersenne_fast (NB p : Nat) (x : RCt) : Option RCt :=
  let n := (mersenne_coeff_p p).1
  let c := (mersenne_coeff_p p).2
  let cb := c_blocks c
  (mersenne_reduce_pass_final n c NB (2 + cb) x).bind fun y =>
  (csub y.len NB).map fun kf => trimMsb kf y

/-- `mul_mod_mersenne` of `src/ops/mersenne.rs`: extend `a` by `NB` trivial
zero blocks, multiply by `b`, and reduce with the single-term engine. -/
def mul_mod_mersenne (NB p : Nat) (a b : RCt) : Option RCt :=
  mod_mersenne NB p (mulCt (extendMsb NB a) b)

/-- `mul_mod_mersenne2` of `src/ops/mersenne.rs`: as `mul_mod_mersenne`, but
reducing with the two-term engine. -/
def mul_mod_mersenne2 (NB p : Nat) (a b : RCt) : Option RCt :=
  mod_mersenne2 NB p (mulCt (extendMsb NB a) b)

/-- Plain-number form of one reduction pass: the value `c * (x >> n) + (x
mod 2^n)` that a pass computes when none of its trims and wrap-arounds lose
information. -/
def mersenne_reduce_step (n c x : Nat) : Nat := c * (x / 2 ^ n) + x % 2 ^ n

example : mersenne_coeff_p 127 = (7, 1) := by decide
example : mersenne_coeff_p 251 = (8, 5) := by decide
example : mersenne_coeff_p2 251 = (8, some 2, 1) := by decide
example : mersenne_step 251 61752 = 1261 := by decide
example : mersenne_mod_native 61752 251 = some 6 := by decide
example : mod_mersenne 4 251 ⟨8, 61752⟩ = some ⟨4, 6⟩ := by decide
example : mul_mod_mersenne 4 251 ⟨4, 249⟩ ⟨4, 248⟩ = some ⟨4, 6⟩ := by decide
example : mul_mod_mersenne 4 251 ⟨4, 4⟩ ⟨4, 63⟩ = some ⟨4, 252⟩ := by decide
example : mul_mod_mersenne2 4 251 ⟨4, 249⟩ ⟨4, 248⟩ = some ⟨4, 6⟩ := by decide
example : mod_mersenne_fast 4 251 ⟨5, 498⟩ = some ⟨4, 247⟩ := by decide
example : mod_mersenne_fast 4 251 ⟨5, 251⟩ = some ⟨4, 251⟩ := by decide
example : mod_mersenne 3 56 ⟨6, 3025⟩ = some ⟨3, 57⟩ := by decide
example : mod_mersenne2 3 56 ⟨6, 3025⟩ = some ⟨3, 25⟩ := by decide

/-! ### Arithmetic facts about the logarithm helpers -/

theorem natLog2Aux_spec : ∀ fuel n, 1 ≤ n → n ≤ fuel →
    2 ^ natLog2Aux fuel n ≤ n ∧ n < 2 ^ (natLog2Aux fuel n + 1) := by
  intro fuel
  induction fuel with
  | zero => intro n h1 h0; omega
  | succ fuel ih =>
    intro n h1 hle
    by_cases hsmall : n ≤ 1
    · have hn1 : n = 1 := by omega
      simp [natLog2Aux, hn1]
    · have h2 : 2 ≤ n := by omega
      have hrec := ih (n / 2) (by omega) (by omega)
      have hstep : natLog2Aux (fuel + 1) n = natLog2Aux fuel (n / 2) + 1 := by
        simp [natLog2Aux, hsmall]
      rw [hstep]
      obtain ⟨hl, hr⟩ := hrec
      constructor
      · calc 2 ^ (natLog2Aux fuel (n / 2) + 1) = 2 * 2 ^ natLog2Aux fuel (n / 2) := by ring
        _ ≤ 2 * (n / 2) := by omega
        _ ≤ n := by omega
      · calc n < 2 * (n / 2) + 2 := by omega
        _ ≤ 2 * 2 ^ (natLog2Aux fuel (n / 2) + 1) := by omega
        _ = 2 ^ (natLog2Aux fuel (n / 2) + 1 + 1) := by ring

theorem ilog2_floor_spec (n : Nat) (h : 1 ≤ n) :
    2 ^ bigint_ilog2_floor n ≤ n ∧ n < 2 ^ (bigint_ilog2_floor n + 1) :=
  natLog2Aux_spec n n h le_rfl

theorem ilog2_ceil_le (n : Nat) (h : 1 ≤ n) : n ≤ 2 ^ bigint_ilog2_ceil n := by
  by_cases hsmall : n ≤ 1
  · have : n = 1 := by omega
    simp [bigint_ilog2_ceil, this]
  · have h2 : 2 ≤ n := by omega
    have hfl := ilog2_floor_spec (n - 1) (by omega)
    simp only [bigint_ilog2_ceil, if_neg hsmall]
    omega

theorem ilog2_ceil_lt (n : Nat) (h : 2 ≤ n) :
    2 ^ (bigint_ilog2_ceil n - 1) < n := by
  have hfl := ilog2_floor_spec (n - 1) (by omega)
  have hne : ¬ n ≤ 1 := by omega
  simp only [bigint_ilog2_ceil, if_neg hne]
  simpa using hfl.1.trans_lt (by omega : n - 1 < n)

theorem ilog2_ceil_pos (n : Nat) (h : 2 ≤ n) : 1 ≤ bigint_ilog2_ceil n := by
  have hne : ¬ n ≤ 1 := by omega
  simp [bigint_ilog2_ceil, if_neg hne]

theorem ilog2_ceil_min (n k : Nat) (hk : n ≤ 2 ^ k) : bigint_ilog2_ceil n ≤ k := by
  by_cases hsmall : n ≤ 1
  · simp [bigint_ilog2_ceil, hsmall]
  · have h2 : 2 ≤ n := by omega
    have hfl := ilog2_floor_spec (n - 1) (by omega)
    simp only [bigint_ilog2_ceil, if_neg hsmall]
    by_contra hcon
    have hkf : k ≤ bigint_ilog2_floor (n - 1) := by omega
    have : (2 : Nat) ^ k ≤ 2 ^ bigint_ilog2_floor (n - 1) :=
      Nat.pow_le_pow_right (by omega) hkf
    omega

theorem lt_two_pow_natBits (c : Nat) : c < 2 ^ natBits c := by
  by_cases hc : c = 0
  · simp [natBits, hc]
  · have := (ilog2_floor_spec c (by omega)).2
    simpa [natBits, hc] using this

theorem natBits_le_of_lt (c k : Nat) (h : c < 2 ^ k) : natBits c ≤ k := by
  by_cases hc : c = 0
  · simp [natBits, hc]
  · have hfl := ilog2_floor_spec c (by omega)
    simp only [natBits, if_neg hc]
    by_contra hcon
    have hkf : k ≤ bigint_ilog2_floor c := by omega
    have : (2 : Nat) ^ k ≤ 2 ^ bigint_ilog2_floor c :=
      Nat.pow_le_pow_right (by omega) hkf
    omega

theorem natBits_mono (c d : Nat) (h : c ≤ d) : natBits c ≤ natBits d :=
  natBits_le_of_lt c (natBits d) (lt_of_le_of_lt h (lt_two_pow_natBits d))

theorem natBits_le_two_c_blocks (c : Nat) : natBits c ≤ 2 * c_blocks c := by
  simp only [c_blocks]; omega

theorem lt_four_pow_c_blocks (c : Nat) : c < 4 ^ c_blocks c := by
  have h1 : c < 2 ^ natBits c := lt_two_pow_natBits c
  have h2 : (2 : Nat) ^ natBits c ≤ 2 ^ (2 * c_blocks c) :=
    Nat.pow_le_pow_right (by omega) (natBits_le_two_c_blocks c)
  have h3 : (4 : Nat) ^ c_blocks c = 2 ^ (2 * c_blocks c) := by
    rw [show (4 : Nat) = 2 ^ 2 by norm_num, ← pow_mul, Nat.mul_comm]
  omega

/-! ### Exact evaluation of a reduction pass -/

theorem pow4_eq_pow2 (k : Nat) : (4 : Nat) ^ k = 2 ^ (2 * k) := by
  rw [show (4 : Nat) = 2 ^ 2 by norm_num, ← pow_mul]

theorem subCt_split (L X n : Nat) (hX : X < 4 ^ L) :
    subCt ⟨L, X⟩ (shiftL n (shiftR n ⟨L, X⟩)) = ⟨L, X % 2 ^ n⟩ := by
  have hq : X / 2 ^ n * 2 ^ n ≤ X := Nat.div_mul_le_self X (2 ^ n)
  have hql : X / 2 ^ n * 2 ^ n < 4 ^ L := lt_of_le_of_lt hq hX
  have hdm : X / 2 ^ n * 2 ^ n + X % 2 ^ n = X := Nat.div_add_mod' X (2 ^ n)
  simp only [subCt, shiftL, shiftR, max_self]
  congr 1
  rw [Nat.mod_eq_of_lt hql, Nat.mod_eq_of_lt hql, Nat.mod_eq_of_lt hX]
  have hsum : X + (4 ^ L - X / 2 ^ n * 2 ^ n) = 4 ^ L + X % 2 ^ n := by omega
  rw [hsum, Nat.add_mod_left, Nat.mod_eq_of_lt (by omega)]

theorem mersenne_reduce_pass_eq (n c NB T L X : Nat)
    (hX : X < 4 ^ L) (hT : T ≤ L) (hNB : NB ≤ L)
    (ha : X / 2 ^ n < 4 ^ T) (hca : c * (X / 2 ^ n) < 4 ^ T)
    (hb : X % 2 ^ n < 4 ^ NB)
    (hy : c * (X / 2 ^ n) + X % 2 ^ n < 4 ^ max T NB) :
    mersenne_reduce_pass n c NB T ⟨L, X⟩ =
      some ⟨max T NB, mersenne_reduce_step n c X⟩ := by
  simp only [mersenne_reduce_pass, csub, if_pos hT, if_pos hNB,
    subCt_split L X n hX]
  simp only [trimMsb, shiftR, scalarMul, addCt, mersenne_reduce_step]
  rw [Nat.sub_sub_self hT, Nat.sub_sub_self hNB]
  rw [Nat.mod_eq_of_lt ha, Nat.mod_eq_of_lt hb, Nat.mod_eq_of_lt hca,
    Nat.mod_eq_of_lt hy]

theorem mersenne_reduce_pass_final_eq (n c NB T L X : Nat)
    (hX : X < 4 ^ L) (hT : T ≤ L) (hNB : NB ≤ L)
    (ha : X / 2 ^ n < 4 ^ T) (hca : c * (X / 2 ^ n) < 4 ^ T)
    (hb : X % 2 ^ n < 4 ^ NB)
    (hy : c * (X / 2 ^ n) + X % 2 ^ n < 4 ^ max NB T) :
    mersenne_reduce_pass_final n c NB T ⟨L, X⟩ =
      some ⟨max NB T, mersenne_reduce_step n c X⟩ := by
  simp only [mersenne_reduce_pass_final, csub, if_pos hT, if_pos hNB,
    subCt_split L X n hX]
  simp only [trimMsb, shiftR, scalarMul, addCt, mersenne_reduce_step]
  rw [Nat.sub_sub_self hT, Nat.sub_sub_self hNB]
  rw [Nat.mod_eq_of_lt ha, Nat.mod_eq_of_lt hb, Nat.mod_eq_of_lt hca]
  rw [Nat.add_comm (X % 2 ^ n) (c * (X / 2 ^ n))]
  rw [Nat.mod_eq_of_lt hy]

theorem mersenne_reduce_pass_two_some_eq (n mv : Nat) (c2 : Int)
    (c NB T L X : Nat) (hc : c2.toNat + 2 ^ mv = c)
    (hX : X < 4 ^ L) (hT : T ≤ L) (hNB : NB ≤ L)
    (ha : X / 2 ^ n < 4 ^ T) (hca : c * (X / 2 ^ n) < 4 ^ T)
    (hb : X % 2 ^ n < 4 ^ NB)
    (hy : c * (X / 2 ^ n) + X % 2 ^ n < 4 ^ max T NB) :
    mersenne_reduce_pass_two n (some mv) c2 NB T ⟨L, X⟩ =
      some ⟨max T NB, mersenne_reduce_step n c X⟩ := by
  have h2mc : 2 ^ mv ≤ c := by rw [← hc]; exact Nat.le_add_left _ _
  have hc2c : c2.toNat ≤ c := by rw [← hc]; exact Nat.le_add_right _ _
  have hma : X / 2 ^ n * 2 ^ mv < 4 ^ T := by
    calc X / 2 ^ n * 2 ^ mv = 2 ^ mv * (X / 2 ^ n) := Nat.mul_comm _ _
    _ ≤ c * (X / 2 ^ n) := Nat.mul_le_mul_right _ h2mc
    _ < 4 ^ T := hca
  have hc2a : c2.toNat * (X / 2 ^ n) < 4 ^ T := by
    calc c2.toNat * (X / 2 ^ n) ≤ c * (X / 2 ^ n) :=
          Nat.mul_le_mul_right _ hc2c
    _ < 4 ^ T := hca
  simp only [mersenne_reduce_pass_two, csub, if_pos hT, if_pos hNB,
    subCt_split L X n hX]
  simp only [trimMsb, shiftR, shiftL, scalarMul, addCt, mersenne_reduce_step]
  rw [Nat.sub_sub_self hT, Nat.sub_sub_self hNB]
  rw [Nat.mod_eq_of_lt ha, Nat.mod_eq_of_lt hb]
  rw [Nat.mod_eq_of_lt hma, Nat.mod_eq_of_lt hc2a]
  simp only [max_self]
  have hsum : c2.toNat * (X / 2 ^ n) + X / 2 ^ n * 2 ^ mv = c * (X / 2 ^ n) := by
    rw [← hc]; ring
  rw [hsum, Nat.mod_eq_of_lt hca, Nat.mod_eq_of_lt hy]

theorem mersenne_reduce_pass_two_none_eq (n : Nat) (c2 : Int)
    (c NB T L X : Nat) (hc : c2.toNat = c)
    (hX : X < 4 ^ L) (hT : T ≤ L) (hNB : NB ≤ L)
    (ha : X / 2 ^ n < 4 ^ T) (hca : c * (X / 2 ^ n) < 4 ^ T)
    (hb : X % 2 ^ n < 4 ^ NB)
    (hy : c * (X / 2 ^ n) + X % 2 ^ n < 4 ^ max T NB) :
    mersenne_reduce_pass_two n none c2 NB T ⟨L, X⟩ =
      some ⟨max T NB, mersenne_reduce_step n c X⟩ := by
  simp only [mersenne_reduce_pass_two, csub, if_pos hT, if_pos hNB,
    subCt_split L X n hX]
  simp only [trimMsb, shiftR, scalarMul, addCt, mersenne_reduce_step, hc]
  rw [Nat.sub_sub_self hT, Nat.sub_sub_self hNB]
  rw [Nat.mod_eq_of_lt ha, Nat.mod_eq_of_lt hb, Nat.mod_eq_of_lt hca,
    Nat.mod_eq_of_lt hy]

/-! ### The plain-number pass and its arithmetic -/

theorem mersenne_reduce_step_eq (n c X : Nat) :
    mersenne_reduce_step n c X = c * (X / 2 ^ n) + X % 2 ^ n := rfl

theorem mersenne_reduce_step_add (n c p X : Nat) (hpc : p + c = 2 ^ n) :
    mersenne_reduce_step n c X + p * (X / 2 ^ n) = X := by
  have hdm : 2 ^ n * (X / 2 ^ n) + X % 2 ^ n = X := Nat.div_add_mod X (2 ^ n)
  rw [mersenne_reduce_step_eq]
  calc c * (X / 2 ^ n) + X % 2 ^ n + p * (X / 2 ^ n)
      = (p + c) * (X / 2 ^ n) + X % 2 ^ n := by ring
  _ = 2 ^ n * (X / 2 ^ n) + X % 2 ^ n := by rw [hpc]
  _ = X := hdm

theorem mersenne_reduce_step_mod (n c p X : Nat) (hpc : p + c = 2 ^ n) :
    mersenne_reduce_step n c X % p = X % p := by
  conv_rhs => rw [← mersenne_reduce_step_add n c p X hpc]
  rw [Nat.mul_comm, Nat.add_mul_mod_self_right]

theorem mersenne_reduce_step_lt (n c d X : Nat) (hq : X / 2 ^ n ≤ d) :
    mersenne_reduce_step n c X < c * d + 2 ^ n := by
  rw [mersenne_reduce_step_eq]
  have h1 : c * (X / 2 ^ n) ≤ c * d := Nat.mul_le_mul_left _ hq
  have h2 : X % 2 ^ n < 2 ^ n := Nat.mod_lt _ (by positivity)
  omega


/-- Auxiliary integer inequality for the extreme gap `c = 2^NB`: if
`q * E^2 ≤ (E^2 - E - 1)^2` then `q` cannot reach `E^2 - 2E` once `E ≥ 8`. -/
theorem sharp_q1_aux (E q : Int) (hE8 : 8 ≤ E)
    (hqN : q * (E * E) ≤ (E * E - E - 1) * (E * E - E - 1))
    (hq : E * E ≤ q + 2 * E) : False := by
  have hN0 : (0 : Int) ≤ E * E := by positivity
  have h2 : (E * E - 2 * E) * (E * E) ≤ q * (E * E) :=
    mul_le_mul_of_nonneg_right (by linarith) hN0
  nlinarith [sq_nonneg (E - 8)]

/-- Convergence bound for the three fixed passes: starting from a product of
two residues (`X ≤ (p-1)^2`), the value obtained after three exact passes
fits in `NB` blocks, so the final trim of `mod_mersenne` loses nothing. -/
theorem mersenne_three_step_lt (p N c n NB X d : Nat)
    (hd : p = d + 1) (h2 : 2 ≤ p)
    (hpc : p + c = N) (hN : N = 2 ^ n) (hNlt : N < 2 * p)
    (hgap : c ≤ 2 ^ ((n + 1) / 2)) (hN4 : N ≤ 4 ^ NB) (hn2 : n ≤ 2 * NB)
    (hbits : natBits c + 2 ≤ 2 * NB)
    (hq1 : X / 2 ^ n ≤ d) (hX : X ≤ d * d) :
    mersenne_reduce_step n c (mersenne_reduce_step n c
      (mersenne_reduce_step n c X)) < 4 ^ NB := by
  have hNpos : 0 < N := by omega
  have hdN : d ≤ N := by omega
  have h2c : 2 * c < N := by omega
  -- c^2 ≤ 2N from the gap precondition
  have hcc : c * c ≤ 2 * N := by
    have ha : c * c ≤ 2 ^ ((n + 1) / 2) * 2 ^ ((n + 1) / 2) :=
      Nat.mul_le_mul hgap hgap
    have hb : (2 : Nat) ^ ((n + 1) / 2) * 2 ^ ((n + 1) / 2)
        = 2 ^ ((n + 1) / 2 + (n + 1) / 2) := (pow_add 2 _ _).symm
    have hc : (2 : Nat) ^ ((n + 1) / 2 + (n + 1) / 2) ≤ 2 ^ (n + 1) :=
      Nat.pow_le_pow_right (by norm_num) (by omega)
    have hdd : (2 : Nat) ^ (n + 1) = 2 * N := by rw [hN]; ring
    omega
  set Y1 := mersenne_reduce_step n c X with hY1
  set Y2 := mersenne_reduce_step n c Y1 with hY2
  set Y3 := mersenne_reduce_step n c Y2 with hY3
  clear_value Y1 Y2 Y3
  -- bounds along the chain
  have hy1lt : Y1 < c * d + N := by
    rw [hY1, hN]; exact mersenne_reduce_step_lt n c d X hq1
  have hq2 : Y1 / 2 ^ n ≤ c := by
    have hstep : Y1 < 2 ^ n * (c + 1) := by
      have h1 : c * d ≤ c * N := Nat.mul_le_mul_left _ hdN
      have h2' : 2 ^ n * (c + 1) = c * N + N := by rw [hN]; ring
      omega
    have := Nat.div_lt_of_lt_mul hstep
    omega
  have hy2lt : Y2 < c * c + N := by
    rw [hY2, hN]; exact mersenne_reduce_step_lt n c c Y1 hq2
  have hq3 : Y2 / 2 ^ n ≤ 2 := by
    have hstep : Y2 < 2 ^ n * 3 := by
      have : 2 ^ n * 3 = 3 * N := by rw [hN]; ring
      omega
    have := Nat.div_lt_of_lt_mul hstep
    omega
  have hy3lt : Y3 < c * 2 + N := by
    rw [hY3, hN]; exact mersenne_reduce_step_lt n c 2 Y2 hq3
  by_contra hcon
  push_neg at hcon
  -- the wrap can only occur when N = 4^NB (so n = 2NB)
  have hy3lt2N : Y3 < 2 * N := by omega
  have hNeq : N = 4 ^ NB := by
    have hpow1 : (4 : Nat) ^ NB = 2 ^ (2 * NB) := pow4_eq_pow2 NB
    have h2N : 2 * N = 2 ^ (n + 1) := by rw [hN]; ring
    have hlt : (2 : Nat) ^ (2 * NB) < 2 ^ (n + 1) := by omega
    have := (Nat.pow_lt_pow_iff_right (by norm_num : 1 < 2)).mp hlt
    have hn' : n = 2 * NB := by omega
    rw [hN, hn', hpow1]
  rw [← hNeq] at hcon
  -- split Y3 and Y2 at the n-bit boundary
  have hr3 : Y2 % 2 ^ n < N := by rw [hN]; exact Nat.mod_lt _ (by positivity)
  have hy3eq : Y3 = c * (Y2 / 2 ^ n) + Y2 % 2 ^ n := by
    rw [hY3]; exact mersenne_reduce_step_eq n c Y2
  have hq3pos : 1 ≤ Y2 / 2 ^ n := by
    rcases Nat.eq_zero_or_pos (Y2 / 2 ^ n) with hq0 | hq0
    · exfalso
      have hsmall : Y3 = Y2 % 2 ^ n := by rw [hy3eq, hq0]; ring
      omega
    · exact hq0
  have hadd : Y3 + p * (Y2 / 2 ^ n) = Y2 := by
    rw [hY3]; exact mersenne_reduce_step_add n c p Y2 (by omega)
  have hppos : 1 ≤ p := by omega
  have hpq3 : p ≤ p * (Y2 / 2 ^ n) := Nat.le_mul_of_pos_right p hq3pos
  -- hence p < c^2
  have hpcc : p + 1 ≤ c * c := by omega
  -- the gap bound becomes c ≤ 2^NB since n = 2NB
  have hn' : n = 2 * NB := by
    have hpow1 : (4 : Nat) ^ NB = 2 ^ (2 * NB) := pow4_eq_pow2 NB
    have h1 : (2 : Nat) ^ n = 2 ^ (2 * NB) := by rw [← hN, hNeq, hpow1]
    have := Nat.pow_right_injective (by norm_num : 2 ≤ 2) h1
    omega
  have hgapE : c ≤ 2 ^ NB := by
    have : (n + 1) / 2 = NB := by omega
    rwa [this] at hgap
  set E := 2 ^ NB with hE
  have hEpos : 0 < E := by rw [hE]; positivity
  have hNEE : N = E * E := by
    rw [hNeq, hE, pow4_eq_pow2, Nat.two_mul, pow_add]
  rcases Nat.lt_or_ge c E with hcE | hcE'
  · -- c < E : contradiction with p + 1 ≤ c^2
    obtain ⟨F, hF⟩ : ∃ F, E = F + 1 := ⟨E - 1, by omega⟩
    have hkey : c * (c + 1) ≤ F * (F + 1) :=
      Nat.mul_le_mul (by omega) (by omega)
    have hexp : (F + 1) * (F + 1) = F * (F + 1) + (F + 1) := by ring
    have hNF : N = (F + 1) * (F + 1) := by rw [hNEE, hF]
    have hccc : c * c + c = c * (c + 1) := by ring
    omega
  · -- c = E : the extreme gap; then NB ≥ 3 and a sharper chain bound applies
    have hcE : c = E := by omega
    have hbitsE : NB < natBits c := by
      have h1 : E ≤ c := by omega
      have h2' : c < 2 ^ natBits c := lt_two_pow_natBits c
      have h3 : (2 : Nat) ^ NB < 2 ^ natBits c := by omega
      exact (Nat.pow_lt_pow_iff_right (by norm_num : 1 < 2)).mp h3
    have hNB3 : 3 ≤ NB := by omega
    have hE8 : 8 ≤ E := by
      have h8 : (2 : Nat) ^ 3 ≤ 2 ^ NB := Nat.pow_le_pow_right (by norm_num) hNB3
      omega
    -- sharper bound on the first quotient: q1 + 2E < N
    have hq1mul : X / 2 ^ n * 2 ^ n ≤ X := Nat.div_mul_le_self X (2 ^ n)
    have hq1N : X / 2 ^ n * N ≤ d * d := by
      rw [hN]; exact le_trans hq1mul hX
    have hdE : d + E + 1 = N := by omega
    have hs1 : X / 2 ^ n + 2 * E + 1 ≤ N := by
      by_contra hcon1
      push_neg at hcon1
      have hq1ge : N ≤ X / 2 ^ n + 2 * E := by omega
      refine sharp_q1_aux (E : Int) ((X / 2 ^ n : Nat) : Int) (by exact_mod_cast hE8) ?_ ?_
      · have hdz : (d : Int) = (E : Int) * E - E - 1 := by
          have h1 : (d : Int) + E + 1 = N := by exact_mod_cast hdE
          have h2' : (N : Int) = E * E := by exact_mod_cast hNEE
          omega
        have hz1 : ((X / 2 ^ n : Nat) : Int) * N ≤ (d : Int) * d := by
          exact_mod_cast hq1N
        have h2' : (N : Int) = E * E := by exact_mod_cast hNEE
        rw [hdz, h2'] at hz1
        exact hz1
      · have hz2 : (N : Int) ≤ ((X / 2 ^ n : Nat) : Int) + 2 * E := by
          exact_mod_cast hq1ge
        have h2' : (N : Int) = E * E := by exact_mod_cast hNEE
        omega
    -- hence q2 < E
    have hy1E : Y1 < E * N := by
      have hy1eq : Y1 = c * (X / 2 ^ n) + X % 2 ^ n := by
        rw [hY1]; exact mersenne_reduce_step_eq n c X
      have hr1 : X % 2 ^ n < N := by rw [hN]; exact Nat.mod_lt _ (by positivity)
      have hmul : E * (X / 2 ^ n + 2 * E + 1) ≤ E * N := Nat.mul_le_mul_left E hs1
      have hexpand : E * (X / 2 ^ n + 2 * E + 1)
          = E * (X / 2 ^ n) + 2 * (E * E) + E := by ring
      rw [hcE] at hy1eq
      omega
    have hq2E : Y1 / 2 ^ n < E := by
      apply Nat.div_lt_of_lt_mul
      have hcomm : 2 ^ n * E = E * N := by rw [hN]; ring
      omega
    -- hence Y2 ≤ 2N - E - 1
    have hy2E : Y2 + E + 1 ≤ 2 * N := by
      have hy2eq : Y2 = c * (Y1 / 2 ^ n) + Y1 % 2 ^ n := by
        rw [hY2]; exact mersenne_reduce_step_eq n c Y1
      have hr2 : Y1 % 2 ^ n < N := by rw [hN]; exact Nat.mod_lt _ (by positivity)
      have hmul : E * (Y1 / 2 ^ n + 1) ≤ E * E :=
        Nat.mul_le_mul_left E (by omega)
      have hexpand : E * (Y1 / 2 ^ n + 1) = E * (Y1 / 2 ^ n) + E := by ring
      rw [hcE] at hy2eq
      omega
    -- but the wrap forces Y2 ≥ 2N - E
    have hPE : p + E = N := by omega
    omega

theorem option_bind_some {α β : Type} (a : α) (f : α → Option β) :
    (some a).bind f = f a := rfl

/-- Exact evaluation of the single-term engine on the product of two
residues: all trims and wrap-arounds are lossless, and `mod_mersenne`
returns an `NB`-block ciphertext holding the third iterate of the plain
reduction step. -/
theorem mod_mersenne_eval (NB p L X : Nat)
    (h2 : 2 ≤ p)
    (hgap : 2 ^ bigint_ilog2_ceil p - p ≤ 2 ^ ((bigint_ilog2_ceil p + 1) / 2))
    (hp4 : p ≤ 4 ^ NB)
    (hcb : c_blocks (2 ^ bigint_ilog2_ceil p - p) + 1 ≤ NB)
    (hlen : L ≤ 2 * NB)
    (hX : X ≤ (p - 1) * (p - 1)) :
    mod_mersenne NB p ⟨L, X⟩ = some ⟨NB,
      mersenne_reduce_step (bigint_ilog2_ceil p) (2 ^ bigint_ilog2_ceil p - p)
        (mersenne_reduce_step (bigint_ilog2_ceil p) (2 ^ bigint_ilog2_ceil p - p)
          (mersenne_reduce_step (bigint_ilog2_ceil p)
            (2 ^ bigint_ilog2_ceil p - p) X))⟩ := by
  set n := bigint_ilog2_ceil p with hn
  set c := 2 ^ n - p with hc
  set cb := c_blocks c with hcbdef
  have hpN : p ≤ 2 ^ n := ilog2_ceil_le p (by omega)
  have hpc : p + c = 2 ^ n := by omega
  have hn1 : 1 ≤ n := ilog2_ceil_pos p h2
  have hNlt : 2 ^ n < 2 * p := by
    have hhalf : 2 ^ (n - 1) < p := ilog2_ceil_lt p h2
    have hsplit : 2 ^ n = 2 * 2 ^ (n - 1) := by
      obtain ⟨nn, hnn⟩ : ∃ nn, n = nn + 1 := ⟨n - 1, by omega⟩
      rw [hnn, pow_succ]
      simp [Nat.mul_comm]
    omega
  have hn2NB : n ≤ 2 * NB := by
    apply ilog2_ceil_min
    rw [← pow4_eq_pow2]
    exact hp4
  have hN4 : 2 ^ n ≤ 4 ^ NB := by
    rw [pow4_eq_pow2]; exact Nat.pow_le_pow_right (by norm_num) hn2NB
  obtain ⟨d, hd⟩ : ∃ d, p = d + 1 := ⟨p - 1, by omega⟩
  have hXd : X ≤ d * d := by
    have hpd : p - 1 = d := by omega
    rwa [hpd] at hX
  have hdN : d ≤ 2 ^ n := by omega
  have hq1d : X / 2 ^ n ≤ d := by
    have h1 : X ≤ d * 2 ^ n := le_trans hXd (Nat.mul_le_mul_left d hdN)
    have h2' : X / 2 ^ n ≤ d * 2 ^ n / 2 ^ n := Nat.div_le_div_right h1
    rwa [Nat.mul_div_cancel d (by positivity)] at h2'
  have hbits2 : natBits c ≤ 2 * cb := by
    rw [hcbdef]; exact natBits_le_two_c_blocks c
  have hcpow : c < 2 ^ (2 * cb) :=
    lt_of_lt_of_le (lt_two_pow_natBits c)
      (Nat.pow_le_pow_right (by norm_num) hbits2)
  have hcc : c * c ≤ 2 * 2 ^ n := by
    have ha : c * c ≤ 2 ^ ((n + 1) / 2) * 2 ^ ((n + 1) / 2) :=
      Nat.mul_le_mul hgap hgap
    have hb : (2 : Nat) ^ ((n + 1) / 2) * 2 ^ ((n + 1) / 2)
        = 2 ^ ((n + 1) / 2 + (n + 1) / 2) := (pow_add 2 _ _).symm
    have hc2 : (2 : Nat) ^ ((n + 1) / 2 + (n + 1) / 2) ≤ 2 ^ (n + 1) :=
      Nat.pow_le_pow_right (by norm_num) (by omega)
    have hdd : (2 : Nat) ^ (n + 1) = 2 * 2 ^ n := by ring
    omega
  have hcp : c < p := by omega
  set Y1 := mersenne_reduce_step n c X with hY1
  set Y2 := mersenne_reduce_step n c Y1 with hY2
  set Y3 := mersenne_reduce_step n c Y2 with hY3
  clear_value Y1 Y2 Y3
  have hy1lt : Y1 < c * d + 2 ^ n := by
    rw [hY1]; exact mersenne_reduce_step_lt n c d X hq1d
  have hq2c : Y1 / 2 ^ n ≤ c := by
    have hstep : Y1 < 2 ^ n * (c + 1) := by
      have h1 : c * d ≤ c * 2 ^ n := Nat.mul_le_mul_left _ hdN
      have h2' : 2 ^ n * (c + 1) = c * 2 ^ n + 2 ^ n := by ring
      omega
    have := Nat.div_lt_of_lt_mul hstep
    omega
  have hy2lt : Y2 < c * c + 2 ^ n := by
    rw [hY2]; exact mersenne_reduce_step_lt n c c Y1 hq2c
  have hq3two : Y2 / 2 ^ n ≤ 2 := by
    have hstep : Y2 < 2 ^ n * 3 := by omega
    have := Nat.div_lt_of_lt_mul hstep
    omega
  have hy3lt : Y3 < c * 2 + 2 ^ n := by
    rw [hY3]; exact mersenne_reduce_step_lt n c 2 Y2 hq3two
  have hy3NB : Y3 < 4 ^ NB := by
    rw [hY3, hY2, hY1]
    exact mersenne_three_step_lt p (2 ^ n) c n NB X d hd h2 hpc rfl hNlt hgap
      hN4 hn2NB (by omega) hq1d hXd
  -- bounds feeding the three pass evaluations
  have hcd2n : c * d ≤ c * 2 ^ n := Nat.mul_le_mul_left _ hdN
  have hexp1 : (c + 1) * 2 ^ n = c * 2 ^ n + 2 ^ n := by ring
  have h4NBcb : (c + 1) * 2 ^ n ≤ 4 ^ (NB + cb) := by
    have h1 : (c + 1) * 2 ^ n ≤ 2 ^ (2 * cb) * 4 ^ NB :=
      Nat.mul_le_mul (by omega) hN4
    have h2' : (2 : Nat) ^ (2 * cb) * 4 ^ NB = 4 ^ (NB + cb) := by
      rw [pow4_eq_pow2, pow4_eq_pow2, ← pow_add]
      congr 1
      ring
    omega
  have hy1B : Y1 < 4 ^ (NB + cb) := by
    have h1 : c * d ≤ c * 2 ^ n := Nat.mul_le_mul_left _ hdN
    have h2' : (c + 1) * 2 ^ n = c * 2 ^ n + 2 ^ n := by ring
    omega
  have hmono1 : (4 : Nat) ^ (NB + cb) ≤ 4 ^ (NB + cb + 1) :=
    Nat.pow_le_pow_right (by norm_num) (by omega)
  have hmonoNB : (4 : Nat) ^ NB ≤ 4 ^ (NB + cb + 1) :=
    Nat.pow_le_pow_right (by norm_num) (by omega)
  have hXd4 : X < 4 ^ (2 * NB) := by
    have h1 : d * d < p * p :=
      mul_lt_mul'' (by omega) (by omega) (Nat.zero_le d) (Nat.zero_le d)
    have h2' : p * p ≤ 4 ^ NB * 4 ^ NB := Nat.mul_le_mul hp4 hp4
    have h3 : (4 : Nat) ^ NB * 4 ^ NB = 4 ^ (2 * NB) := by
      rw [← pow_add]; congr 1; ring
    omega
  have hp1 : mersenne_reduce_pass n c NB (NB + cb + 1) ⟨2 * NB, X⟩
      = some ⟨NB + cb + 1, Y1⟩ := by
    have hmax : max (NB + cb + 1) NB = NB + cb + 1 := Nat.max_eq_left (by omega)
    have h := mersenne_reduce_pass_eq n c NB (NB + cb + 1) (2 * NB) X
      hXd4 (by omega) (by omega)
      (by omega)
      (by
        have h1 : c * (X / 2 ^ n) ≤ c * d := Nat.mul_le_mul_left _ hq1d
        omega)
      (by
        have h1 : X % 2 ^ n < 2 ^ n := Nat.mod_lt _ (by positivity)
        omega)
      (by
        rw [hmax, ← mersenne_reduce_step_eq n c X, ← hY1]
        omega)
    rw [hmax, ← hY1] at h
    exact h
  have h4NB1 : (4 : Nat) ^ (NB + 1) = 4 * 4 ^ NB := by
    rw [pow_succ]; ring
  have hy1in : Y1 < 4 ^ (NB + cb + 1) := by omega
  have hp2 : mersenne_reduce_pass n c NB (NB + 1) ⟨NB + cb + 1, Y1⟩
      = some ⟨NB + 1, Y2⟩ := by
    have hmax : max (NB + 1) NB = NB + 1 := Nat.max_eq_left (by omega)
    have h := mersenne_reduce_pass_eq n c NB (NB + 1) (NB + cb + 1) Y1
      hy1in (by omega) (by omega)
      (by omega)
      (by
        have h1 : c * (Y1 / 2 ^ n) ≤ c * c := Nat.mul_le_mul_left _ hq2c
        omega)
      (by
        have h1 : Y1 % 2 ^ n < 2 ^ n := Nat.mod_lt _ (by positivity)
        omega)
      (by
        rw [hmax, ← mersenne_reduce_step_eq n c Y1, ← hY2]
        omega)
    rw [hmax, ← hY2] at h
    exact h
  have h42cb : 2 * c < 4 ^ (2 + cb) := by
    have h1 : (4 : Nat) ^ (2 + cb) = 2 ^ (2 * cb) * 16 := by
      rw [pow4_eq_pow2, show 2 * (2 + cb) = 2 * cb + 4 by ring, pow_add]
      norm_num
    omega
  have hp3 : mersenne_reduce_pass_final n c NB (2 + cb) ⟨NB + 1, Y2⟩
      = some ⟨max NB (2 + cb), Y3⟩ := by
    have h16 : (16 : Nat) ≤ 4 ^ (2 + cb) := by
      calc (16 : Nat) = 4 ^ 2 := by norm_num
      _ ≤ 4 ^ (2 + cb) := Nat.pow_le_pow_right (by norm_num) (by omega)
    have h := mersenne_reduce_pass_final_eq n c NB (2 + cb) (NB + 1) Y2
      (by omega) (by omega) (by omega)
      (by omega)
      (by
        have h1 : c * (Y2 / 2 ^ n) ≤ c * 2 := Nat.mul_le_mul_left _ hq3two
        omega)
      (by
        have h1 : Y2 % 2 ^ n < 2 ^ n := Nat.mod_lt _ (by positivity)
        omega)
      (by
        have hmx : (4 : Nat) ^ NB ≤ 4 ^ max NB (2 + cb) :=
          Nat.pow_le_pow_right (by norm_num) (le_max_left _ _)
        rw [← mersenne_reduce_step_eq n c Y2, ← hY3]
        omega)
    rw [← hY3] at h
    exact h
  -- assemble the engine run
  simp only [mod_mersenne, mersenne_coeff_p, ← hn, ← hc, ← hcbdef]
  rw [show csub (NB * 2) L = some (NB * 2 - L) from if_pos (by omega)]
  rw [option_bind_some]
  rw [show extendMsb (NB * 2 - L) ⟨L, X⟩ = ⟨2 * NB, X⟩ from by
    simp only [extendMsb]
    congr 1
    omega]
  rw [hp1, option_bind_some, hp2, option_bind_some, hp3, option_bind_some]
  rw [show csub (RCt.len ⟨max NB (2 + cb), Y3⟩) NB
      = some (max NB (2 + cb) - NB) from if_pos (le_max_left _ _)]
  rw [Option.map_some']
  simp only [trimMsb]
  rw [Nat.sub_sub_self (le_max_left _ _)]
  rw [Nat.mod_eq_of_lt hy3NB]

theorem mersenne_reduce_step_fixed (n c X : Nat) (h : X < 2 ^ n) :
    mersenne_reduce_step n c X = X := by
  rw [mersenne_reduce_step_eq, Nat.div_eq_of_lt h, Nat.mod_eq_of_lt h,
    Nat.mul_zero, Nat.zero_add]

/-- On an already-reduced value (`X < p`) every pass is the identity and the
engine returns the input value, padded or trimmed to `NB` blocks. -/
theorem mod_mersenne_fixed (NB p L X : Nat)
    (h2 : 2 ≤ p)
    (hgap : 2 ^ bigint_ilog2_ceil p - p ≤ 2 ^ ((bigint_ilog2_ceil p + 1) / 2))
    (hp4 : p ≤ 4 ^ NB)
    (hcb : c_blocks (2 ^ bigint_ilog2_ceil p - p) + 1 ≤ NB)
    (hlen : L ≤ 2 * NB)
    (hXp : X < p) :
    mod_mersenne NB p ⟨L, X⟩ = some ⟨NB, X⟩ := by
  have hXd : X ≤ (p - 1) * (p - 1) := by
    have h1 : X ≤ p - 1 := by omega
    have h2' : 1 ≤ p - 1 := by omega
    calc X ≤ p - 1 := h1
    _ ≤ (p - 1) * (p - 1) := Nat.le_mul_of_pos_left _ (by omega)
  have hXn : X < 2 ^ bigint_ilog2_ceil p :=
    lt_of_lt_of_le hXp (ilog2_ceil_le p (by omega))
  rw [mod_mersenne_eval NB p L X h2 hgap hp4 hcb hlen hXd]
  rw [mersenne_reduce_step_fixed _ _ X hXn, mersenne_reduce_step_fixed _ _ X hXn,
    mersenne_reduce_step_fixed _ _ X hXn]

theorem mersenne_reduce_step_lt_pow (n c p X : Nat) (hpc : p + c = 2 ^ n)
    (hX : X < 2 * p) : mersenne_reduce_step n c X < 2 ^ n := by
  have hq : X / 2 ^ n ≤ 1 := by
    have h1 : X < 2 ^ n * 2 := by omega
    have := Nat.div_lt_of_lt_mul h1
    omega
  have hadd := mersenne_reduce_step_add n c p X hpc
  rcases Nat.le_one_iff_eq_zero_or_eq_one.mp hq with h0 | h1
  · rw [mersenne_reduce_step_eq, h0, Nat.mul_zero, Nat.zero_add]
    exact Nat.mod_lt _ (by positivity)
  · rw [h1, Nat.mul_one] at hadd
    omega

/-- Exact evaluation of the one-pass fast variant on an input below `2p`. -/
theorem mod_mersenne_fast_eval (NB p L X : Nat)
    (h2 : 2 ≤ p) (hp4 : p ≤ 4 ^ NB)
    (hTL : 2 + c_blocks (2 ^ bigint_ilog2_ceil p - p) ≤ L) (hNBL : NB ≤ L)
    (hX2p : X < 2 * p) (hXL : X < 4 ^ L) :
    mod_mersenne_fast NB p ⟨L, X⟩ = some ⟨NB,
      mersenne_reduce_step (bigint_ilog2_ceil p)
        (2 ^ bigint_ilog2_ceil p - p) X⟩ := by
  set n := bigint_ilog2_ceil p with hn
  set c := 2 ^ n - p with hc
  set cb := c_blocks c with hcbdef
  have hpN : p ≤ 2 ^ n := ilog2_ceil_le p (by omega)
  have hpc : p + c = 2 ^ n := by omega
  have hn2NB : n ≤ 2 * NB := by
    apply ilog2_ceil_min
    rw [← pow4_eq_pow2]
    exact hp4
  have hN4 : 2 ^ n ≤ 4 ^ NB := by
    rw [pow4_eq_pow2]; exact Nat.pow_le_pow_right (by norm_num) hn2NB
  have hbits2 : natBits c ≤ 2 * cb := by
    rw [hcbdef]; exact natBits_le_two_c_blocks c
  have hcpow : c < 2 ^ (2 * cb) :=
    lt_of_lt_of_le (lt_two_pow_natBits c)
      (Nat.pow_le_pow_right (by norm_num) hbits2)
  have h42cb : (4 : Nat) ^ (2 + cb) = 2 ^ (2 * cb) * 16 := by
    rw [pow4_eq_pow2, show 2 * (2 + cb) = 2 * cb + 4 by ring, pow_add]
    norm_num
  have hq1 : X / 2 ^ n ≤ 1 := by
    have h1 : X < 2 ^ n * 2 := by omega
    have := Nat.div_lt_of_lt_mul h1
    omega
  have hstepN : mersenne_reduce_step n c X < 2 ^ n :=
    mersenne_reduce_step_lt_pow n c p X hpc hX2p
  have h16 : (16 : Nat) ≤ 4 ^ (2 + cb) := by omega
  have hmaxNB : (4 : Nat) ^ NB ≤ 4 ^ max NB (2 + cb) :=
    Nat.pow_le_pow_right (by norm_num) (le_max_left _ _)
  have hpass := mersenne_reduce_pass_final_eq n c NB (2 + cb) L X
    hXL hTL hNBL
    (by omega)
    (by
      have h1 : c * (X / 2 ^ n) ≤ c * 1 := Nat.mul_le_mul_left _ hq1
      omega)
    (by
      have h1 : X % 2 ^ n < 2 ^ n := Nat.mod_lt _ (by positivity)
      omega)
    (by
      rw [← mersenne_reduce_step_eq n c X]
      omega)
  simp only [mod_mersenne_fast, mersenne_coeff_p, ← hn, ← hc, ← hcbdef]
  rw [hpass, option_bind_some]
  rw [show csub (RCt.len ⟨max NB (2 + cb), mersenne_reduce_step n c X⟩) NB
      = some (max NB (2 + cb) - NB) from if_pos (le_max_left _ _)]
  rw [Option.map_some']
  simp only [trimMsb]
  rw [Nat.sub_sub_self (le_max_left _ _)]
  rw [Nat.mod_eq_of_lt (by omega : mersenne_reduce_step n c X < 4 ^ NB)]

/-! ### The native reference reduction -/

theorem mersenne_step_gap (p x : Nat) :
    mersenne_step p x = x / 2 ^ bigint_ilog2_ceil p
      * (2 ^ bigint_ilog2_ceil p - p) + x % 2 ^ bigint_ilog2_ceil p := by
  unfold mersenne_step mersenne_coeff_p2
  by_cases h1 : 2 ^ bigint_ilog2_ceil p - p = 1
  · simp only [if_pos h1, h1]
    norm_num
  · simp only [if_neg h1]
    have htn : ((2 ^ bigint_ilog2_ceil p - p : Nat) : Int)
        - 2 ^ bigint_ilog2_floor (2 ^ bigint_ilog2_ceil p - p)
        + 2 ^ bigint_ilog2_floor (2 ^ bigint_ilog2_ceil p - p)
        = ((2 ^ bigint_ilog2_ceil p - p : Nat) : Int) := by ring
    simp only [htn, Int.toNat_natCast]

theorem mersenne_mod_go_none (p x : Nat)
    (hfix : mersenne_step p x = x) (hpx : p ≤ x) :
    ∀ fuel, mersenne_mod_go fuel x p = none := by
  intro fuel
  induction fuel with
  | zero => rfl
  | succ fuel ih =>
    simp only [mersenne_mod_go, hfix, if_pos hpx]
    exact ih

theorem mersenne_coeff_p2_one (p : Nat)
    (h1 : 2 ^ bigint_ilog2_ceil p - p = 1) :
    mersenne_coeff_p2 p = (bigint_ilog2_ceil p, none, 1) := by
  simp only [mersenne_coeff_p2]
  rw [if_pos h1]

theorem mersenne_coeff_p2_two (p : Nat)
    (h1 : ¬ 2 ^ bigint_ilog2_ceil p - p = 1) :
    mersenne_coeff_p2 p = (bigint_ilog2_ceil p,
      some (bigint_ilog2_floor (2 ^ bigint_ilog2_ceil p - p)),
      ((2 ^ bigint_ilog2_ceil p - p : Nat) : Int)
        - 2 ^ bigint_ilog2_floor (2 ^ bigint_ilog2_ceil p - p)) := by
  simp only [mersenne_coeff_p2]
  rw [if_neg h1]

theorem mersenne_coeff_p2_fst (p : Nat) :
    (mersenne_coeff_p2 p).1 = bigint_ilog2_ceil p := by
  by_cases h1 : 2 ^ bigint_ilog2_ceil p - p = 1
  · rw [mersenne_coeff_p2_one p h1]
  · rw [mersenne_coeff_p2_two p h1]

/-- Exact evaluation of the two-term engine.  Besides the hypotheses of
`mod_mersenne_eval` it needs `p` strictly below `2^n` (the source computes
`floor(log2 0)` otherwise) and two width-budget bounds `H5`, `H6` expressing
that the smaller trim targets computed from the two-term residual still fit
the full gap products; when they hold the engine computes the same three
iterates as the single-term engine. -/
theorem mod_mersenne2_eval (NB p L X : Nat)
    (h2 : 2 ≤ p)
    (hgap : 2 ^ bigint_ilog2_ceil p - p ≤ 2 ^ ((bigint_ilog2_ceil p + 1) / 2))
    (hp4 : p ≤ 4 ^ NB)
    (hcb : c_blocks (2 ^ bigint_ilog2_ceil p - p) + 1 ≤ NB)
    (hlen : L ≤ 2 * NB)
    (hX : X ≤ (p - 1) * (p - 1))
    (hlt : p < 2 ^ bigint_ilog2_ceil p)
    (H5 : (2 ^ bigint_ilog2_ceil p - p) * (p - 1) + 2 ^ bigint_ilog2_ceil p
      ≤ 4 ^ (NB + c_blocks (mersenne_coeff_p2 p).2.2.toNat + 1))
    (H6 : 2 * (2 ^ bigint_ilog2_ceil p - p)
      < 4 ^ (2 + c_blocks (mersenne_coeff_p2 p).2.2.toNat)) :
    mod_mersenne2 NB p ⟨L, X⟩ = some ⟨NB,
      mersenne_reduce_step (bigint_ilog2_ceil p) (2 ^ bigint_ilog2_ceil p - p)
        (mersenne_reduce_step (bigint_ilog2_ceil p) (2 ^ bigint_ilog2_ceil p - p)
          (mersenne_reduce_step (bigint_ilog2_ceil p)
            (2 ^ bigint_ilog2_ceil p - p) X))⟩ := by
  set n := bigint_ilog2_ceil p with hn
  set c := 2 ^ n - p with hc
  set cb := c_blocks c with hcbdef
  set cb2 := c_blocks (mersenne_coeff_p2 p).2.2.toNat with hcb2def
  have hpN : p ≤ 2 ^ n := ilog2_ceil_le p (by omega)
  have hpc : p + c = 2 ^ n := by omega
  have hcpos : 1 ≤ c := by omega
  have hn1 : 1 ≤ n := ilog2_ceil_pos p h2
  have hNlt : 2 ^ n < 2 * p := by
    have hhalf : 2 ^ (n - 1) < p := ilog2_ceil_lt p h2
    have hsplit : 2 ^ n = 2 * 2 ^ (n - 1) := by
      obtain ⟨nn, hnn⟩ : ∃ nn, n = nn + 1 := ⟨n - 1, by omega⟩
      rw [hnn, pow_succ]
      simp [Nat.mul_comm]
    omega
  have hn2NB : n ≤ 2 * NB := by
    apply ilog2_ceil_min
    rw [← pow4_eq_pow2]
    exact hp4
  have hN4 : 2 ^ n ≤ 4 ^ NB := by
    rw [pow4_eq_pow2]; exact Nat.pow_le_pow_right (by norm_num) hn2NB
  obtain ⟨d, hd⟩ : ∃ d, p = d + 1 := ⟨p - 1, by omega⟩
  have hXd : X ≤ d * d := by
    have hpd : p - 1 = d := by omega
    rwa [hpd] at hX
  have hdN : d ≤ 2 ^ n := by omega
  have hq1d : X / 2 ^ n ≤ d := by
    have h1 : X ≤ d * 2 ^ n := le_trans hXd (Nat.mul_le_mul_left d hdN)
    have h2' : X / 2 ^ n ≤ d * 2 ^ n / 2 ^ n := Nat.div_le_div_right h1
    rwa [Nat.mul_div_cancel d (by positivity)] at h2'
  have hbits2 : natBits c ≤ 2 * cb := by
    rw [hcbdef]; exact natBits_le_two_c_blocks c
  have hcc : c * c ≤ 2 * 2 ^ n := by
    have ha : c * c ≤ 2 ^ ((n + 1) / 2) * 2 ^ ((n + 1) / 2) :=
      Nat.mul_le_mul hgap hgap
    have hb : (2 : Nat) ^ ((n + 1) / 2) * 2 ^ ((n + 1) / 2)
        = 2 ^ ((n + 1) / 2 + (n + 1) / 2) := (pow_add 2 _ _).symm
    have hc2 : (2 : Nat) ^ ((n + 1) / 2 + (n + 1) / 2) ≤ 2 ^ (n + 1) :=
      Nat.pow_le_pow_right (by norm_num) (by omega)
    have hdd : (2 : Nat) ^ (n + 1) = 2 * 2 ^ n := by ring
    omega
  have hcp : c < p := by omega
  set Y1 := mersenne_reduce_step n c X with hY1
  set Y2 := mersenne_reduce_step n c Y1 with hY2
  set Y3 := mersenne_reduce_step n c Y2 with hY3
  clear_value Y1 Y2 Y3
  have hy1lt : Y1 < c * d + 2 ^ n := by
    rw [hY1]; exact mersenne_reduce_step_lt n c d X hq1d
  have hq2c : Y1 / 2 ^ n ≤ c := by
    have hstep : Y1 < 2 ^ n * (c + 1) := by
      have h1 : c * d ≤ c * 2 ^ n := Nat.mul_le_mul_left _ hdN
      have h2' : 2 ^ n * (c + 1) = c * 2 ^ n + 2 ^ n := by ring
      omega
    have := Nat.div_lt_of_lt_mul hstep
    omega
  have hy2lt : Y2 < c * c + 2 ^ n := by
    rw [hY2]; exact mersenne_reduce_step_lt n c c Y1 hq2c
  have hq3two : Y2 / 2 ^ n ≤ 2 := by
    have hstep : Y2 < 2 ^ n * 3 := by omega
    have := Nat.div_lt_of_lt_mul hstep
    omega
  have hy3NB : Y3 < 4 ^ NB := by
    rw [hY3, hY2, hY1]
    exact mersenne_three_step_lt p (2 ^ n) c n NB X d hd h2 hpc rfl hNlt hgap
      hN4 hn2NB (by omega) hq1d hXd
  -- budget facts shared by the passes
  have hcd2n : c * d ≤ c * 2 ^ n := Nat.mul_le_mul_left _ hdN
  have hH5 : c * d + 2 ^ n ≤ 4 ^ (NB + cb2 + 1) := by
    have hpd : p - 1 = d := by omega
    rw [← hpd]
    exact H5
  have hcq1 : c * (X / 2 ^ n) ≤ c * d := Nat.mul_le_mul_left _ hq1d
  have h4NB1 : (4 : Nat) ^ (NB + 1) = 4 * 4 ^ NB := by
    rw [pow_succ]; ring
  have hcb2NB : cb2 + 1 ≤ NB := by
    have hmono : (mersenne_coeff_p2 p).2.2.toNat ≤ c := by
      by_cases hb1 : c = 1
      · have hco := mersenne_coeff_p2_one p (by rw [← hn]; omega)
        rw [← hn] at hco
        rw [hco, hb1]
        simp
      · have hco := mersenne_coeff_p2_two p (by rw [← hn]; omega)
        rw [← hn, ← hc] at hco
        rw [hco]
        have hA : (0 : Int) ≤ 2 ^ bigint_ilog2_floor c := by positivity
        simp only
        omega
    have hbmono := natBits_mono _ _ hmono
    have h1 : natBits (mersenne_coeff_p2 p).2.2.toNat ≤ 2 * cb := le_trans hbmono hbits2
    rw [hcb2def]
    unfold c_blocks
    unfold c_blocks at hcbdef
    omega
  have h16 : (16 : Nat) ≤ 4 ^ (2 + cb2) := by
    calc (16 : Nat) = 4 ^ 2 := by norm_num
    _ ≤ 4 ^ (2 + cb2) := Nat.pow_le_pow_right (by norm_num) (by omega)
  have hy1in : Y1 < 4 ^ (NB + cb2 + 1) := by omega
  have hXd4 : X < 4 ^ (2 * NB) := by
    have h1 : d * d < p * p :=
      mul_lt_mul'' (by omega) (by omega) (Nat.zero_le d) (Nat.zero_le d)
    have h2' : p * p ≤ 4 ^ NB * 4 ^ NB := Nat.mul_le_mul hp4 hp4
    have h3 : (4 : Nat) ^ NB * 4 ^ NB = 4 ^ (2 * NB) := by
      rw [← pow_add]; congr 1; ring
    omega
  -- the three passes, in the two shapes of the coefficient triple
  have hpass : ∀ T LL V, T ≤ LL → NB ≤ LL → V < 4 ^ LL →
      V / 2 ^ n < 4 ^ T → c * (V / 2 ^ n) < 4 ^ T →
      c * (V / 2 ^ n) + V % 2 ^ n < 4 ^ max T NB →
      mersenne_reduce_pass_two n (mersenne_coeff_p2 p).2.1
        (mersenne_coeff_p2 p).2.2 NB T ⟨LL, V⟩
        = some ⟨max T NB, mersenne_reduce_step n c V⟩ := by
    intro T LL V hT hNB hV ha hca hy
    by_cases hb1 : c = 1
    · have hco := mersenne_coeff_p2_one p (by rw [← hn]; omega)
      rw [← hn] at hco
      rw [hco]
      exact mersenne_reduce_pass_two_none_eq n 1 c NB T LL V
        (by simp [hb1]) hV hT hNB ha hca
        (by
          have h1 : V % 2 ^ n < 2 ^ n := Nat.mod_lt _ (by positivity)
          omega) hy
    · have hco := mersenne_coeff_p2_two p (by rw [← hn]; omega)
      rw [← hn, ← hc] at hco
      rw [hco]
      have hfl := ilog2_floor_spec c (by omega)
      exact mersenne_reduce_pass_two_some_eq n (bigint_ilog2_floor c)
        ((c : Int) - 2 ^ bigint_ilog2_floor c) c NB T LL V
        (by
          have h1 : 2 ^ bigint_ilog2_floor c ≤ c := hfl.1
          have hcast : ((2 ^ bigint_ilog2_floor c : Nat) : Int)
              = (2 : Int) ^ bigint_ilog2_floor c := by push_cast; rfl
          omega) hV hT hNB ha hca
        (by
          have h1 : V % 2 ^ n < 2 ^ n := Nat.mod_lt _ (by positivity)
          omega) hy
  have hp1 : mersenne_reduce_pass_two n (mersenne_coeff_p2 p).2.1
      (mersenne_coeff_p2 p).2.2 NB (NB + cb2 + 1) ⟨2 * NB, X⟩
      = some ⟨NB + cb2 + 1, Y1⟩ := by
    have hmax : max (NB + cb2 + 1) NB = NB + cb2 + 1 := Nat.max_eq_left (by omega)
    have h := hpass (NB + cb2 + 1) (2 * NB) X (by omega) (by omega) hXd4
      (by
        have hm : (4 : Nat) ^ NB ≤ 4 ^ (NB + cb2 + 1) :=
          Nat.pow_le_pow_right (by norm_num) (by omega)
        omega)
      (by omega)
      (by
        rw [hmax, ← mersenne_reduce_step_eq n c X, ← hY1]
        have h1 : X % 2 ^ n < 2 ^ n := Nat.mod_lt _ (by positivity)
        omega)
    rw [hmax, ← hY1] at h
    exact h
  have hp2 : mersenne_reduce_pass_two n (mersenne_coeff_p2 p).2.1
      (mersenne_coeff_p2 p).2.2 NB (NB + 1) ⟨NB + cb2 + 1, Y1⟩
      = some ⟨NB + 1, Y2⟩ := by
    have hmax : max (NB + 1) NB = NB + 1 := Nat.max_eq_left (by omega)
    have h := hpass (NB + 1) (NB + cb2 + 1) Y1 (by omega) (by omega) hy1in
      (by omega)
      (by
        have h1 : c * (Y1 / 2 ^ n) ≤ c * c := Nat.mul_le_mul_left _ hq2c
        omega)
      (by
        rw [hmax, ← mersenne_reduce_step_eq n c Y1, ← hY2]
        omega)
    rw [hmax, ← hY2] at h
    exact h
  have hp3 : mersenne_reduce_pass_two n (mersenne_coeff_p2 p).2.1
      (mersenne_coeff_p2 p).2.2 NB (2 + cb2) ⟨NB + 1, Y2⟩
      = some ⟨max (2 + cb2) NB, Y3⟩ := by
    have h := hpass (2 + cb2) (NB + 1) Y2 (by omega) (by omega) (by omega)
      (by omega)
      (by
        have h1 : c * (Y2 / 2 ^ n) ≤ c * 2 := Nat.mul_le_mul_left _ hq3two
        omega)
      (by
        have hmx : (4 : Nat) ^ NB ≤ 4 ^ max (2 + cb2) NB :=
          Nat.pow_le_pow_right (by norm_num) (le_max_right _ _)
        rw [← mersenne_reduce_step_eq n c Y2, ← hY3]
        omega)
    rw [← hY3] at h
    exact h
  -- assemble the engine run
  simp only [mod_mersenne2, mersenne_coeff_p2_fst, ← hn, ← hcb2def]
  rw [show csub (NB * 2) L = some (NB * 2 - L) from if_pos (by omega)]
  rw [option_bind_some]
  rw [show extendMsb (NB * 2 - L) ⟨L, X⟩ = ⟨2 * NB, X⟩ from by
    simp only [extendMsb]
    congr 1
    omega]
  rw [hp1, option_bind_some, hp2, option_bind_some, hp3, option_bind_some]
  rw [show csub (RCt.len ⟨max (2 + cb2) NB, Y3⟩) NB
      = some (max (2 + cb2) NB - NB) from if_pos (le_max_right _ _)]
  rw [Option.map_some']
  simp only [trimMsb]
  rw [Nat.sub_sub_self (le_max_right _ _)]
  rw [Nat.mod_eq_of_lt hy3NB]

/-! ### Claim theorems -/

/-- C8: for every `p > 0`, `mersenne_coeff_p p` returns `(n, c)` where `n` is
`ceil(log2 p)` — characterized as the least exponent with `p ≤ 2^n` — and
`c = 2^n - p`, so `p + c = 2^n`; in particular `mersenne_coeff_p 127 = (7, 1)`
(checked in the witness). -/
theorem c8_mersenne_coeff_p_spec (p : Nat) (hp : 1 ≤ p) :
    p ≤ 2 ^ (mersenne_coeff_p p).1 ∧
    (∀ k, p ≤ 2 ^ k → (mersenne_coeff_p p).1 ≤ k) ∧
    p + (mersenne_coeff_p p).2 = 2 ^ (mersenne_coeff_p p).1 := by
  simp only [mersenne_coeff_p]
  refine ⟨ilog2_ceil_le p hp, fun k hk => ilog2_ceil_min p k hk, ?_⟩
  have h1 := ilog2_ceil_le p hp
  omega

theorem c8_mersenne_coeff_p_spec_witness :
    (1 ≤ 127 ∧
      (127 ≤ 2 ^ (mersenne_coeff_p 127).1 ∧
        (∀ k, 127 ≤ 2 ^ k → (mersenne_coeff_p 127).1 ≤ k) ∧
        127 + (mersenne_coeff_p 127).2 = 2 ^ (mersenne_coeff_p 127).1)) ∧
    mersenne_coeff_p 127 = (7, 1) :=
  ⟨⟨by norm_num, c8_mersenne_coeff_p_spec 127 (by norm_num)⟩, by decide⟩

/-- C9: for every `p > 0`, `mersenne_coeff_p2 p` computes `n = ceil(log2 p)`
and `b = 2^n - p`; when `b = 1` it returns `(n, none, 1)`, otherwise it
returns `(n, some m, c)` with `m = floor(log2 b)` and `c = b - 2^m`; moreover
for a genuine two-term gap (`b ≥ 2`) this decomposes `p = 2^n - 2^m - c`
with `0 ≤ c < 2^m`. -/
theorem c9_mersenne_coeff_p2_spec (p : Nat) (hp : 1 ≤ p) :
    (2 ^ bigint_ilog2_ceil p - p = 1 →
      mersenne_coeff_p2 p = (bigint_ilog2_ceil p, none, 1)) ∧
    (2 ^ bigint_ilog2_ceil p - p ≠ 1 →
      mersenne_coeff_p2 p = (bigint_ilog2_ceil p,
        some (bigint_ilog2_floor (2 ^ bigint_ilog2_ceil p - p)),
        ((2 ^ bigint_ilog2_ceil p - p : Nat) : Int)
          - 2 ^ bigint_ilog2_floor (2 ^ bigint_ilog2_ceil p - p))) ∧
    (2 ≤ 2 ^ bigint_ilog2_ceil p - p →
      (p : Int) + (mersenne_coeff_p2 p).2.2
          + 2 ^ bigint_ilog2_floor (2 ^ bigint_ilog2_ceil p - p)
        = 2 ^ bigint_ilog2_ceil p ∧
      0 ≤ (mersenne_coeff_p2 p).2.2 ∧
      (mersenne_coeff_p2 p).2.2
        < 2 ^ bigint_ilog2_floor (2 ^ bigint_ilog2_ceil p - p)) := by
  refine ⟨fun h1 => mersenne_coeff_p2_one p h1,
    fun h1 => mersenne_coeff_p2_two p h1, fun h2 => ?_⟩
  set b := 2 ^ bigint_ilog2_ceil p - p with hb
  have hco := mersenne_coeff_p2_two p (by omega)
  rw [← hb] at hco
  rw [hco]
  simp only
  have hfl := ilog2_floor_spec b (by omega)
  have hple : p ≤ 2 ^ bigint_ilog2_ceil p := by
    by_contra hcon
    have : b = 0 := by omega
    omega
  have hcast1 : ((2 ^ bigint_ilog2_floor b : Nat) : Int)
      = (2 : Int) ^ bigint_ilog2_floor b := by push_cast; rfl
  have hcast2 : ((2 ^ bigint_ilog2_ceil p : Nat) : Int)
      = (2 : Int) ^ bigint_ilog2_ceil p := by push_cast; rfl
  refine ⟨?_, ?_, ?_⟩
  · omega
  · omega
  · omega

theorem c9_mersenne_coeff_p2_spec_witness :
    (1 ≤ 251 ∧
      ((2 ^ bigint_ilog2_ceil 251 - 251 = 1 →
        mersenne_coeff_p2 251 = (bigint_ilog2_ceil 251, none, 1)) ∧
      (2 ^ bigint_ilog2_ceil 251 - 251 ≠ 1 →
        mersenne_coeff_p2 251 = (bigint_ilog2_ceil 251,
          some (bigint_ilog2_floor (2 ^ bigint_ilog2_ceil 251 - 251)),
          ((2 ^ bigint_ilog2_ceil 251 - 251 : Nat) : Int)
            - 2 ^ bigint_ilog2_floor (2 ^ bigint_ilog2_ceil 251 - 251))) ∧
      (2 ≤ 2 ^ bigint_ilog2_ceil 251 - 251 →
        (251 : Int) + (mersenne_coeff_p2 251).2.2
            + 2 ^ bigint_ilog2_floor (2 ^ bigint_ilog2_ceil 251 - 251)
          = 2 ^ bigint_ilog2_ceil 251 ∧
        0 ≤ (mersenne_coeff_p2 251).2.2 ∧
        (mersenne_coeff_p2 251).2.2
          < 2 ^ bigint_ilog2_floor (2 ^ bigint_ilog2_ceil 251 - 251)))) ∧
    mersenne_coeff_p2 251 = (8, some 2, 1) :=
  ⟨⟨by norm_num, c9_mersenne_coeff_p2_spec 251 (by norm_num)⟩, by decide⟩

/-- C2: the plaintext reference `mersenne_mod_native` is claimed to return
`x % p` for all positive `x`; but at `x = 252`, `p = 251` the candidate
residue equals the input (`252` is below `2^8` yet `≥ 251`), so the Rust
function recurses on the same value forever instead of returning
`252 % 251 = 1`.  In the fuel model the run never produces a value. -/
theorem c2_mersenne_mod_native_diverges :
    mersenne_mod_native 252 251 = none ∧ 252 % 251 = 1 := by
  constructor
  · exact mersenne_mod_go_none 251 252 (by decide) (by norm_num) (252 + 2)
  · norm_num

/-- C4: termination of `mersenne_mod_native` fails: at `x = 252`, `p = 251`
the reduction step is the identity (`mersenne_step 251 252 = 252`) while the
stop condition `r < p` is false, so the recursion never terminates — the
fuel-indexed unfolding returns `none` for every fuel. -/
theorem c4_mersenne_mod_native_no_termination :
    mersenne_step 251 252 = 252 ∧
    ∀ fuel, mersenne_mod_go fuel 252 251 = none := by
  constructor
  · decide
  · exact mersenne_mod_go_none 251 252 (by decide) (by norm_num)

/-- C10: an input wider than `2 * NB` blocks makes the very first block-count
subtraction `(NB * 2) - x.blocks().len()` underflow, so both engines panic
(modelled as `none`) rather than silently reducing an over-wide input. -/
theorem c10_overwide_input_panics (NB p : Nat) (x : RCt)
    (h : 2 * NB < x.len) :
    mod_mersenne NB p x = none ∧ mod_mersenne2 NB p x = none := by
  have hcs : csub (NB * 2) x.len = none := by
    simp only [csub]
    rw [if_neg (by omega)]
  constructor
  · simp only [mod_mersenne, hcs]
    rfl
  · simp only [mod_mersenne2, hcs]
    rfl

theorem c10_overwide_input_panics_witness :
    2 * 4 < 9 ∧
    (mod_mersenne 4 251 ⟨9, 0⟩ = none ∧ mod_mersenne2 4 251 ⟨9, 0⟩ = none) :=
  ⟨by norm_num, c10_overwide_input_panics 4 251 ⟨9, 0⟩ (by norm_num)⟩

/-- C7: `mod_mersenne` is idempotent on reduced values: for `v < p` the
engine returns an encryption of `v` itself, trimmed to `NB` blocks; in
particular `0` reduces to `0` and `p - 1` to `p - 1` (witness). -/
theorem c7_mod_mersenne_idempotent (NB p L v : Nat)
    (h2 : 2 ≤ p)
    (hgap : 2 ^ bigint_ilog2_ceil p - p ≤ 2 ^ ((bigint_ilog2_ceil p + 1) / 2))
    (hp4 : p ≤ 4 ^ NB)
    (hcb : c_blocks (2 ^ bigint_ilog2_ceil p - p) + 1 ≤ NB)
    (hlen : L ≤ 2 * NB)
    (hv : v < p) :
    mod_mersenne NB p ⟨L, v⟩ = some ⟨NB, v⟩ :=
  mod_mersenne_fixed NB p L v h2 hgap hp4 hcb hlen hv

theorem c7_mod_mersenne_idempotent_witness :
    mod_mersenne 4 251 ⟨4, 0⟩ = some ⟨4, 0⟩ ∧
    mod_mersenne 4 251 ⟨4, 250⟩ = some ⟨4, 250⟩ :=
  ⟨c7_mod_mersenne_idempotent 4 251 4 0 (by norm_num) (by decide) (by norm_num)
      (by decide) (by norm_num) (by norm_num),
    c7_mod_mersenne_idempotent 4 251 4 250 (by norm_num) (by decide)
      (by norm_num) (by decide) (by norm_num) (by norm_num)⟩

/-- C5 counterexample: `x = 251` is below `2p = 502`, yet
`mod_mersenne_fast` leaves it untouched (`251 ≥ p` but `< 2^n`, so the split
quotient is `0`), decrypting to `251` instead of `251 mod 251 = 0`. -/
theorem c5_fast_counterexample :
    251 < 2 * 251 ∧
    (mod_mersenne_fast 4 251 ⟨5, 251⟩).map RCt.val = some 251 ∧
    251 % 251 = 0 := by decide

/-- C5 (amended): for `x < 2p` the fast variant performs one exact
split-and-combine pass and trims to `NB` blocks; the result is congruent to
`x` mod `p` and below `2^n`, and it equals the canonical residue `x mod p`
exactly when `x < p` or `x ≥ 2^n` — for `x` in `[p, 2^n)` it returns `x`
itself, unreduced.  The concrete scenario `x = 498 → 247` is in the
witness. -/
theorem c5_mod_mersenne_fast_congruent (NB p L X : Nat)
    (h2 : 2 ≤ p) (hp4 : p ≤ 4 ^ NB)
    (hTL : 2 + c_blocks (2 ^ bigint_ilog2_ceil p - p) ≤ L) (hNBL : NB ≤ L)
    (hX2p : X < 2 * p) (hXL : X < 4 ^ L) :
    ∃ r, mod_mersenne_fast NB p ⟨L, X⟩ = some r ∧ r.len = NB ∧
      r.val % p = X % p ∧ r.val < 2 ^ bigint_ilog2_ceil p ∧
      (X < p → r.val = X) ∧
      (2 ^ bigint_ilog2_ceil p ≤ X → r.val = X % p) := by
  set n := bigint_ilog2_ceil p with hn
  set c := 2 ^ n - p with hc
  have hpN : p ≤ 2 ^ n := ilog2_ceil_le p (by omega)
  have hpc : p + c = 2 ^ n := by omega
  refine ⟨⟨NB, mersenne_reduce_step n c X⟩,
    mod_mersenne_fast_eval NB p L X h2 hp4 hTL hNBL hX2p hXL, rfl, ?_, ?_, ?_, ?_⟩
  · exact mersenne_reduce_step_mod n c p X hpc
  · exact mersenne_reduce_step_lt_pow n c p X hpc hX2p
  · intro hXp
    exact mersenne_reduce_step_fixed n c X (lt_of_lt_of_le hXp hpN)
  · intro hNX
    show mersenne_reduce_step n c X = X % p
    have hq1 : X / 2 ^ n ≤ 1 := by
      have h1 : X < 2 ^ n * 2 := by omega
      have := Nat.div_lt_of_lt_mul h1
      omega
    have hq1e : X / 2 ^ n = 1 := by
      have hq1' : 1 ≤ X / 2 ^ n := (Nat.one_le_div_iff (by positivity)).mpr hNX
      omega
    have hadd := mersenne_reduce_step_add n c p X hpc
    rw [hq1e, Nat.mul_one] at hadd
    have hmod : X % p = X - p := by
      have h1 : p ≤ X := le_trans hpN hNX
      rw [Nat.mod_eq_sub_mod h1, Nat.mod_eq_of_lt (by omega)]
    omega

theorem c5_mod_mersenne_fast_congruent_witness :
    (∃ r, mod_mersenne_fast 4 251 ⟨5, 498⟩ = some r ∧ r.len = 4 ∧
      r.val % 251 = 498 % 251 ∧ r.val < 2 ^ bigint_ilog2_ceil 251 ∧
      (498 < 251 → r.val = 498) ∧
      (2 ^ bigint_ilog2_ceil 251 ≤ 498 → r.val = 498 % 251)) ∧
    (mod_mersenne_fast 4 251 ⟨5, 498⟩).map RCt.val = some 247 ∧
    498 % 251 = 247 :=
  ⟨c5_mod_mersenne_fast_congruent 4 251 5 498 (by norm_num) (by norm_num)
      (by decide) (by norm_num) (by norm_num) (by norm_num),
    by decide, by norm_num⟩

theorem mersenne_reduce_pass_len (n c NB T L X : Nat)
    (hT : T ≤ L) (hNB : NB ≤ L) :
    ∃ v, mersenne_reduce_pass n c NB T ⟨L, X⟩ = some ⟨max T NB, v⟩ := by
  simp only [mersenne_reduce_pass, csub, if_pos hT, if_pos hNB, addCt,
    scalarMul, trimMsb, subCt, shiftL, shiftR, max_self]
  rw [Nat.sub_sub_self hT, Nat.sub_sub_self hNB]
  exact ⟨_, rfl⟩

theorem mersenne_reduce_pass_final_len (n c NB T L X : Nat)
    (hT : T ≤ L) (hNB : NB ≤ L) :
    ∃ v, mersenne_reduce_pass_final n c NB T ⟨L, X⟩ = some ⟨max NB T, v⟩ := by
  simp only [mersenne_reduce_pass_final, csub, if_pos hT, if_pos hNB, addCt,
    scalarMul, trimMsb, subCt, shiftL, shiftR, max_self]
  rw [Nat.sub_sub_self hT, Nat.sub_sub_self hNB]
  exact ⟨_, rfl⟩

/-- C3 counterexample: with `p = 251` (`n = 8`, `c = 5`, `c_blocks 5 = 2`)
and `NB = 4`, the first pass of `mod_mersenne` produces an output of
`NB + c_blocks + 1 = 7` blocks, and the second pass splits exactly that
operand: there is no trim of the inter-pass value down to
`NB + c_blocks = 6` blocks as the claim states. -/
theorem c3_pass_width_counterexample :
    mersenne_coeff_p 251 = (8, 5) ∧
    (mersenne_reduce_pass 8 5 4 (4 + c_blocks 5 + 1) ⟨2 * 4, 61752⟩).map RCt.len
      = some (4 + c_blocks 5 + 1) ∧
    4 + c_blocks 5 + 1 ≠ 4 + c_blocks 5 := by decide

/-- C3 (amended): pass 1 of `mod_mersenne` trims the high part to
`NB + c_blocks + 1` blocks and the low part to `NB` blocks and outputs an
`(NB + c_blocks + 1)`-block value; pass 2 splits that output directly (no
pre-trim), trimming its high part to `NB + 1` blocks, and outputs an
`(NB + 1)`-block value; pass 3 trims the high part to `2 + c_blocks`
blocks; and the final output is trimmed to exactly `NB` blocks. -/
theorem c3_mod_mersenne_pass_widths (NB p L X : Nat)
    (hcb : c_blocks (2 ^ bigint_ilog2_ceil p - p) + 1 ≤ NB)
    (hlen : L ≤ 2 * NB) :
    ∃ v1 v2 v3,
      mersenne_reduce_pass (bigint_ilog2_ceil p) (2 ^ bigint_ilog2_ceil p - p)
          NB (NB + c_blocks (2 ^ bigint_ilog2_ceil p - p) + 1) ⟨2 * NB, X⟩
        = some ⟨NB + c_blocks (2 ^ bigint_ilog2_ceil p - p) + 1, v1⟩ ∧
      mersenne_reduce_pass (bigint_ilog2_ceil p) (2 ^ bigint_ilog2_ceil p - p)
          NB (NB + 1) ⟨NB + c_blocks (2 ^ bigint_ilog2_ceil p - p) + 1, v1⟩
        = some ⟨NB + 1, v2⟩ ∧
      mersenne_reduce_pass_final (bigint_ilog2_ceil p)
          (2 ^ bigint_ilog2_ceil p - p) NB
          (2 + c_blocks (2 ^ bigint_ilog2_ceil p - p)) ⟨NB + 1, v2⟩
        = some ⟨max NB (2 + c_blocks (2 ^ bigint_ilog2_ceil p - p)), v3⟩ ∧
      mod_mersenne NB p ⟨L, X⟩ = some ⟨NB, v3 % 4 ^ NB⟩ := by
  set n := bigint_ilog2_ceil p with hn
  set c := 2 ^ n - p with hc
  set cb := c_blocks c with hcbdef
  obtain ⟨v1, hv1⟩ := mersenne_reduce_pass_len n c NB (NB + cb + 1) (2 * NB) X
    (by omega) (by omega)
  rw [Nat.max_eq_left (by omega : NB ≤ NB + cb + 1)] at hv1
  obtain ⟨v2, hv2⟩ := mersenne_reduce_pass_len n c NB (NB + 1) (NB + cb + 1) v1
    (by omega) (by omega)
  rw [Nat.max_eq_left (by omega : NB ≤ NB + 1)] at hv2
  obtain ⟨v3, hv3⟩ := mersenne_reduce_pass_final_len n c NB (2 + cb) (NB + 1) v2
    (by omega) (by omega)
  refine ⟨v1, v2, v3, hv1, hv2, hv3, ?_⟩
  simp only [mod_mersenne, mersenne_coeff_p, ← hn, ← hc, ← hcbdef]
  rw [show csub (NB * 2) L = some (NB * 2 - L) from if_pos (by omega)]
  rw [option_bind_some]
  rw [show extendMsb (NB * 2 - L) ⟨L, X⟩ = ⟨2 * NB, X⟩ from by
    simp only [extendMsb]
    congr 1
    omega]
  rw [hv1, option_bind_some, hv2, option_bind_some, hv3, option_bind_some]
  rw [show csub (RCt.len ⟨max NB (2 + cb), v3⟩) NB
      = some (max NB (2 + cb) - NB) from if_pos (le_max_left _ _)]
  rw [Option.map_some']
  simp only [trimMsb]
  rw [Nat.sub_sub_self (le_max_left _ _)]

theorem c3_mod_mersenne_pass_widths_witness :
    c_blocks (2 ^ bigint_ilog2_ceil 251 - 251) + 1 ≤ 4 ∧ 8 ≤ 2 * 4 ∧
    (∃ v1 v2 v3,
      mersenne_reduce_pass (bigint_ilog2_ceil 251)
          (2 ^ bigint_ilog2_ceil 251 - 251)
          4 (4 + c_blocks (2 ^ bigint_ilog2_ceil 251 - 251) + 1) ⟨2 * 4, 61752⟩
        = some ⟨4 + c_blocks (2 ^ bigint_ilog2_ceil 251 - 251) + 1, v1⟩ ∧
      mersenne_reduce_pass (bigint_ilog2_ceil 251)
          (2 ^ bigint_ilog2_ceil 251 - 251)
          4 (4 + 1) ⟨4 + c_blocks (2 ^ bigint_ilog2_ceil 251 - 251) + 1, v1⟩
        = some ⟨4 + 1, v2⟩ ∧
      mersenne_reduce_pass_final (bigint_ilog2_ceil 251)
          (2 ^ bigint_ilog2_ceil 251 - 251) 4
          (2 + c_blocks (2 ^ bigint_ilog2_ceil 251 - 251)) ⟨4 + 1, v2⟩
        = some ⟨max 4 (2 + c_blocks (2 ^ bigint_ilog2_ceil 251 - 251)), v3⟩ ∧
      mod_mersenne 4 251 ⟨8, 61752⟩ = some ⟨4, v3 % 4 ^ 4⟩) :=
  ⟨by decide, by norm_num,
    c3_mod_mersenne_pass_widths 4 251 8 61752 (by decide) (by norm_num)⟩

/-- C1 counterexample: with `p = 251`, `NB = 4` and 4-block operands, the
product `4 * 63 = 252` lies in `[p, 2^n)`, where every reduction pass is the
identity, so `mul_mod_mersenne` decrypts to `252` and not to
`(4 * 63) mod 251 = 1`; moreover for the claim's concrete scenario the
decrypted result of `mul_mod_mersenne` on `249` and `248` is `6` — which is
`(249 * 248) mod 251` — and not the claimed `77`. -/
theorem c1_mul_mod_counterexample :
    ((4 : Nat) < 251 ∧ (63 : Nat) < 251) ∧
    (mul_mod_mersenne 4 251 ⟨4, 4⟩ ⟨4, 63⟩).map RCt.val = some 252 ∧
    4 * 63 % 251 = 1 ∧
    (mul_mod_mersenne 4 251 ⟨4, 249⟩ ⟨4, 248⟩).map RCt.val = some 6 ∧
    249 * 248 % 251 = 6 := by decide

/-- C1 (amended): for a modulus satisfying the gap precondition, residue
width `NB` holding values `< p` with a block budget for `c` (`c_blocks + 1 ≤
NB`), and operands below `p`, `mul_mod_mersenne` returns an `NB`-block
ciphertext whose plaintext is congruent to the product modulo `p` (but not
necessarily the canonical residue); on the concrete scenario it decrypts to
`6 = (249 * 248) mod 251` (witness). -/
theorem c1_mul_mod_mersenne_congruent (NB p : Nat) (a b : RCt)
    (h2 : 2 ≤ p)
    (hgap : 2 ^ bigint_ilog2_ceil p - p ≤ 2 ^ ((bigint_ilog2_ceil p + 1) / 2))
    (hp4 : p ≤ 4 ^ NB)
    (hcb : c_blocks (2 ^ bigint_ilog2_ceil p - p) + 1 ≤ NB)
    (hal : a.len = NB) (hbl : b.len ≤ 2 * NB)
    (hav : a.val < p) (hbv : b.val < p) :
    ∃ r, mul_mod_mersenne NB p a b = some r ∧ r.len = NB ∧
      r.val % p = a.val * b.val % p := by
  set n := bigint_ilog2_ceil p with hn
  set c := 2 ^ n - p with hc
  have hpN : p ≤ 2 ^ n := ilog2_ceil_le p (by omega)
  have hpc : p + c = 2 ^ n := by omega
  have hprodlt : a.val * b.val < 4 ^ (NB + NB) := by
    have h1 : a.val * b.val < p * p :=
      mul_lt_mul'' hav hbv (Nat.zero_le _) (Nat.zero_le _)
    have h2' : p * p ≤ 4 ^ NB * 4 ^ NB := Nat.mul_le_mul hp4 hp4
    have h3 : (4 : Nat) ^ NB * 4 ^ NB = 4 ^ (NB + NB) := (pow_add 4 NB NB).symm
    omega
  have hprod : mulCt (extendMsb NB a) b = ⟨NB + NB, a.val * b.val⟩ := by
    simp only [mulCt, extendMsb]
    have hm : max (a.len + NB) b.len = NB + NB := by
      rw [hal]; omega
    rw [hm]
    rw [Nat.mod_eq_of_lt hprodlt]
  have hXle : a.val * b.val ≤ (p - 1) * (p - 1) :=
    Nat.mul_le_mul (by omega) (by omega)
  have heval := mod_mersenne_eval NB p (NB + NB) (a.val * b.val) h2 hgap hp4
    hcb (by omega) hXle
  refine ⟨⟨NB,
    mersenne_reduce_step n c (mersenne_reduce_step n c
      (mersenne_reduce_step n c (a.val * b.val)))⟩, ?_, rfl, ?_⟩
  · show mod_mersenne NB p (mulCt (extendMsb NB a) b) = _
    rw [hprod]
    exact heval
  · show mersenne_reduce_step n c (mersenne_reduce_step n c
      (mersenne_reduce_step n c (a.val * b.val))) % p = a.val * b.val % p
    rw [mersenne_reduce_step_mod n c p _ hpc, mersenne_reduce_step_mod n c p _ hpc,
      mersenne_reduce_step_mod n c p _ hpc]

theorem c1_mul_mod_mersenne_congruent_witness :
    (∃ r, mul_mod_mersenne 4 251 ⟨4, 249⟩ ⟨4, 248⟩ = some r ∧ r.len = 4 ∧
      r.val % 251 = 249 * 248 % 251) ∧
    (mul_mod_mersenne 4 251 ⟨4, 249⟩ ⟨4, 248⟩).map RCt.val = some 6 ∧
    249 * 248 % 251 = 6 :=
  ⟨c1_mul_mod_mersenne_congruent 4 251 ⟨4, 249⟩ ⟨4, 248⟩ (by norm_num)
      (by decide) (by norm_num) (by decide) rfl (by norm_num) (by norm_num)
      (by norm_num),
    by decide, by norm_num⟩

/-- C6 counterexample: `p = 56 = 2^6 - 2^3` satisfies the gap precondition
(`c = 8 ≤ 2^3`), and with `NB = 3` both engines accept the 6-block input
`3025 = 55 * 55`; yet `mod_mersenne` decrypts to `57` while `mod_mersenne2`
decrypts to `25` (its narrower two-term trim budget wraps the shifted
product), and neither equals the canonical residue `3025 mod 56 = 1`. -/
theorem c6_engine_counterexample :
    2 ^ bigint_ilog2_ceil 56 - 56 ≤ 2 ^ ((bigint_ilog2_ceil 56 + 1) / 2) ∧
    (mod_mersenne 3 56 ⟨6, 3025⟩).map RCt.val = some 57 ∧
    (mod_mersenne2 3 56 ⟨6, 3025⟩).map RCt.val = some 25 ∧
    3025 % 56 = 1 := by decide

/-- C6 (amended): the two engines agree — and produce a value congruent to
the input modulo `p`, though not necessarily canonical — whenever the
two-term variant's narrower trim budgets suffice: `H5` asks the first-pass
budget `NB + c_blocks(c₂) + 1` to hold the full gap product and `H6` asks
the third-pass budget `2 + c_blocks(c₂)` to hold `2c`, where `c₂` is the
two-term residual of `mersenne_coeff_p2`. -/
theorem c6_engines_agree (NB p L X : Nat)
    (h2 : 2 ≤ p)
    (hgap : 2 ^ bigint_ilog2_ceil p - p ≤ 2 ^ ((bigint_ilog2_ceil p + 1) / 2))
    (hp4 : p ≤ 4 ^ NB)
    (hcb : c_blocks (2 ^ bigint_ilog2_ceil p - p) + 1 ≤ NB)
    (hlen : L ≤ 2 * NB)
    (hX : X ≤ (p - 1) * (p - 1))
    (hlt : p < 2 ^ bigint_ilog2_ceil p)
    (H5 : (2 ^ bigint_ilog2_ceil p - p) * (p - 1) + 2 ^ bigint_ilog2_ceil p
      ≤ 4 ^ (NB + c_blocks (mersenne_coeff_p2 p).2.2.toNat + 1))
    (H6 : 2 * (2 ^ bigint_ilog2_ceil p - p)
      < 4 ^ (2 + c_blocks (mersenne_coeff_p2 p).2.2.toNat)) :
    ∃ r, mod_mersenne NB p ⟨L, X⟩ = some r ∧
      mod_mersenne2 NB p ⟨L, X⟩ = some r ∧
      r.len = NB ∧ r.val % p = X % p := by
  set n := bigint_ilog2_ceil p with hn
  set c := 2 ^ n - p with hc
  have hpN : p ≤ 2 ^ n := ilog2_ceil_le p (by omega)
  have hpc : p + c = 2 ^ n := by omega
  refine ⟨⟨NB,
    mersenne_reduce_step n c (mersenne_reduce_step n c
      (mersenne_reduce_step n c X))⟩,
    mod_mersenne_eval NB p L X h2 hgap hp4 hcb hlen hX,
    mod_mersenne2_eval NB p L X h2 hgap hp4 hcb hlen hX hlt H5 H6, rfl, ?_⟩
  show mersenne_reduce_step n c (mersenne_reduce_step n c
    (mersenne_reduce_step n c X)) % p = X % p
  rw [mersenne_reduce_step_mod n c p _ hpc, mersenne_reduce_step_mod n c p _ hpc,
    mersenne_reduce_step_mod n c p _ hpc]

theorem c6_engines_agree_witness :
    ∃ r, mod_mersenne 5 251 ⟨10, 61752⟩ = some r ∧
      mod_mersenne2 5 251 ⟨10, 61752⟩ = some r ∧
      r.len = 5 ∧ r.val % 251 = 61752 % 251 :=
  c6_engines_agree 5 251 10 61752 (by norm_num) (by decide) (by norm_num)
    (by decide) (by norm_num) (by norm_num) (by decide) (by decide) (by decide)
